import Mathlib

/-!
Verification of the DFA engine (simulator, reachability pruner,
Myhill-Nerode partition-refinement minimizer) of the automata library.

The Rust source (src/src/lib.rs) is shallowly embedded:
* `Transition` / `Dfa` mirror the structs; Rust `HashSet<String>` fields and
  results are modelled as `List String` used up to membership (the code only
  uses membership, insertion, difference and size on them), and
  `HashMap<String, String>` as an association list with overwrite-on-insert,
  mirroring `HashMap::insert` / `HashMap::get`.
* Rust `String` ordering (byte-wise lexicographic on UTF-8, which coincides
  with lexicographic order on unicode scalar values) is embedded as
  `strLeb` / `strLtb` on the underlying character lists.
* The two unbounded loops of the source (the breadth-first traversal of
  `remove_inaccessible_states` and the refinement loop of `minimize`) are
  embedded as step functions iterated until their exit condition, with the
  number of iterations obtained by `Nat.find` from a proved termination
  result, so every definition stays executable.
-/

/-- Byte/scalar-value lexicographic order on character lists, matching the
derived `Ord` of Rust `String` (UTF-8 byte order equals scalar value order). -/
def charListLeb : List Char → List Char → Bool
  | [], _ => true
  | _ :: _, [] => false
  | a :: as, b :: bs => if a < b then true else if a = b then charListLeb as bs else false

/-- Comparison `a <= b` for strings, as in Rust's derived `Ord` on `String`. -/
def strLeb (a b : String) : Bool := charListLeb a.data b.data

/-- Strict string order: `a < b` iff `a <= b` and `a ≠ b`. -/
def strLtb (a b : String) : Bool := strLeb a b && !(a == b)

/-- Rust struct `Transition { state, input, next_state }` (lib.rs lines 14-19). -/
structure Transition where
  state : String
  input : Char
  next_state : String
deriving DecidableEq

/-- The derived lexicographic `Ord` on `Transition` (field order:
state, input, next_state), used by `minimize` for its deterministic sort. -/
def transLE (a b : Transition) : Prop :=
  strLtb a.state b.state = true ∨
    (a.state = b.state ∧
      (a.input < b.input ∨ (a.input = b.input ∧ strLeb a.next_state b.next_state = true)))

instance : DecidableRel transLE := fun a b =>
  inferInstanceAs (Decidable (strLtb a.state b.state = true ∨
    (a.state = b.state ∧
      (a.input < b.input ∨ (a.input = b.input ∧ strLeb a.next_state b.next_state = true)))))

/-- Rust struct `Dfa { name, start_state, accept_states, transitions }`
(lib.rs lines 24-29). `accept_states` is a `HashSet` in the source and is
modelled as a list used up to membership. -/
structure Dfa where
  name : String
  start_state : String
  accept_states : List String
  transitions : List Transition
deriving DecidableEq

/-- Rust `Dfa::get_transition` (lib.rs lines 61-64): the first stored transition
whose source state and input symbol both match. -/
def get_transition (d : Dfa) (state : String) (input : Char) : Option Transition :=
  d.transitions.find? (fun t => t.state == state && t.input == input)

/-- Rust `Dfa::get_all_input_symbols` (lib.rs lines 66-68): the set of symbols
appearing in any transition (the working alphabet). -/
def get_all_input_symbols (d : Dfa) : List Char :=
  (d.transitions.map (fun t => t.input)).dedup

/-- Rust `Dfa::get_all_states` (lib.rs lines 70-72): the set of states appearing
as a source or destination of some transition. -/
def get_all_states (d : Dfa) : List String :=
  (d.transitions.flatMap (fun t => [t.state, t.next_state])).dedup

/-- The loop of `Dfa::check` (lib.rs lines 40-53), recursing over the input
with the current state (the last entry of the trace in the source) carried
explicitly; returns the verdict and the states traversed after the start
state. -/
def checkAux (d : Dfa) : String → List Char → Bool × List String
  | cur, [] => (decide (cur ∈ d.accept_states), [])
  | cur, c :: rest =>
    match get_transition d cur c with
    | some t =>
      ((checkAux d t.next_state rest).1, t.next_state :: (checkAux d t.next_state rest).2)
    | none => (false, [])

/-- Rust `Dfa::check` (lib.rs lines 35-56): verdict plus the full trace, which
starts with the start state. -/
def check (d : Dfa) (input : List Char) : Bool × List String :=
  ((checkAux d d.start_state input).1, d.start_state :: (checkAux d d.start_state input).2)

/-- Modelled from the spec: the source file under src/ has no `test` method;
spec section 4.2 describes `test(input) -> boolean` as performing the same
walk as `check` without recording the trace, returning only the verdict.
This is that walk, without the trace accumulator. -/
def testAux (d : Dfa) : String → List Char → Bool
  | cur, [] => decide (cur ∈ d.accept_states)
  | cur, c :: rest =>
    match get_transition d cur c with
    | some t => testAux d t.next_state rest
    | none => false

/-- Modelled from the spec: `test(input)` starts the trace-free walk at the
start state (spec sections 4.2 and 8). -/
def test (d : Dfa) (input : List Char) : Bool :=
  testAux d d.start_state input

/-- Loop state of the breadth-first traversal in
`Dfa::remove_inaccessible_states` (lib.rs lines 186-209): the visited set,
the `VecDeque` of states still to visit, and (as ghost instrumentation, not
present in the source) the list of every state ever pushed onto the queue,
in push order, used to observe how often a state is scheduled. -/
structure BfsState where
  visited : List String
  queue : List String
  scheduled : List String
deriving DecidableEq

/-- Initial traversal state: the start state is pushed onto the queue
(lib.rs line 193). -/
def bfsInit (s : String) : BfsState :=
  { visited := [], queue := [s], scheduled := [s] }

/-- Rust `HashSet::insert` on the visited set, modelled on lists up to
membership. -/
def setInsert (x : String) (l : List String) : List String :=
  if x ∈ l then l else l ++ [x]

/-- The states pushed while visiting `u` (lib.rs lines 200-208): the
destinations of the transitions leaving `u` that are not yet in the visited
set. The queue itself is not consulted, so an unvisited state can be pushed
more than once. -/
def pushesFor (ts : List Transition) (visited : List String) (u : String) : List String :=
  ((ts.filter (fun t => t.state == u)).filter
      (fun t => decide (t.next_state ∉ visited))).map (fun t => t.next_state)

/-- One iteration of the `while` loop of `remove_inaccessible_states`
(lib.rs lines 195-209): pop the front of the queue, insert it into the
visited set, then push its not-yet-visited successors. Identity once the
queue is empty. -/
def bfsStep (ts : List Transition) (σ : BfsState) : BfsState :=
  match σ.queue with
  | [] => σ
  | u :: rest =>
    { visited := setInsert u σ.visited,
      queue := rest ++ pushesFor ts (setInsert u σ.visited) u,
      scheduled := σ.scheduled ++ pushesFor ts (setInsert u σ.visited) u }

/-- All transition destinations: every state the loop can ever push. -/
def bfsUniv (ts : List Transition) : Finset String :=
  (ts.map (fun t => t.next_state)).toFinset

/-- Primary termination measure: the queued-or-pushable states not yet
visited. -/
def bfsM1 (ts : List Transition) (σ : BfsState) : Nat :=
  ((σ.queue.toFinset ∪ bfsUniv ts) \ σ.visited.toFinset).card

/-- Secondary termination measure: queue entries weighted so that popping an
already-visited state outweighs everything it can push. -/
def bfsM2 (ts : List Transition) (σ : BfsState) : Nat :=
  (σ.queue.map (fun v => if v ∈ σ.visited then ts.length + 1 else 1)).sum

/-- The set tracked by `bfsM1` only shrinks along a step. -/
def bfs_S_sub (ts : List Transition) (σ : BfsState) (u : String) (rest : List String)
    (hq : σ.queue = u :: rest) :
    ((bfsStep ts σ).queue.toFinset ∪ bfsUniv ts) ⊆ (σ.queue.toFinset ∪ bfsUniv ts) := by
  intro x hx
  simp only [bfsStep, hq, Finset.mem_union, List.mem_toFinset, List.mem_append] at hx
  rcases hx with (hx | hx) | hx
  · simp [hq, hx]
  · refine Finset.mem_union_right _ ?_
    simp only [pushesFor, List.mem_map, List.mem_filter] at hx
    obtain ⟨t, ⟨⟨ht, _⟩, _⟩, rfl⟩ := hx
    simp only [bfsUniv, List.mem_toFinset, List.mem_map]
    exact ⟨t, ht, rfl⟩
  · exact Finset.mem_union_right _ hx

/-- The visited set only grows along a step. -/
def bfs_V_sub (ts : List Transition) (σ : BfsState) :
    σ.visited.toFinset ⊆ (bfsStep ts σ).visited.toFinset := by
  cases hq : σ.queue with
  | nil => simp [bfsStep, hq]
  | cons u rest =>
    intro x hx
    simp only [bfsStep, hq, setInsert, List.mem_toFinset] at hx ⊢
    split <;> simp_all

/-- The primary measure never increases. -/
def bfs_m1_le (ts : List Transition) (σ : BfsState) :
    bfsM1 ts (bfsStep ts σ) ≤ bfsM1 ts σ := by
  cases hq : σ.queue with
  | nil => simp [bfsStep, hq, bfsM1]
  | cons u rest =>
    unfold bfsM1
    exact Finset.card_le_card
      (Finset.sdiff_subset_sdiff (bfs_S_sub ts σ u rest hq) (bfs_V_sub ts σ))

/-- Each step either strictly decreases the primary measure or keeps it and
strictly decreases the secondary one. -/
def bfs_dec (ts : List Transition) (σ : BfsState) (u : String) (rest : List String)
    (hq : σ.queue = u :: rest) :
    bfsM1 ts (bfsStep ts σ) < bfsM1 ts σ ∨
      (bfsM1 ts (bfsStep ts σ) = bfsM1 ts σ ∧ bfsM2 ts (bfsStep ts σ) < bfsM2 ts σ) := by
  by_cases hu : u ∈ σ.visited
  · rcases Nat.lt_or_ge (bfsM1 ts (bfsStep ts σ)) (bfsM1 ts σ) with hlt | hge
    · exact Or.inl hlt
    · refine Or.inr ⟨Nat.le_antisymm (bfs_m1_le ts σ) hge, ?_⟩
      have hins : setInsert u σ.visited = σ.visited := by simp [setInsert, hu]
      have hw : ∀ p ∈ pushesFor ts σ.visited u,
          (fun v => if v ∈ σ.visited then ts.length + 1 else 1) p = 1 := by
        intro p hp
        simp only [pushesFor, List.mem_map, List.mem_filter] at hp
        obtain ⟨t, ⟨_, hnv⟩, rfl⟩ := hp
        simp only [decide_eq_true_eq] at hnv
        simp [hnv]
      have hsum : ((pushesFor ts σ.visited u).map
          (fun v => if v ∈ σ.visited then ts.length + 1 else 1)).sum ≤
          (pushesFor ts σ.visited u).length := by
        have := List.sum_le_card_nsmul
          ((pushesFor ts σ.visited u).map
            (fun v => if v ∈ σ.visited then ts.length + 1 else 1)) 1 ?_
        · simpa using this
        · intro x hx
          simp only [List.mem_map] at hx
          obtain ⟨p, hp, rfl⟩ := hx
          exact le_of_eq (hw p hp)
      have hlen : (pushesFor ts σ.visited u).length ≤ ts.length := by
        unfold pushesFor
        simp only [List.length_map]
        exact le_trans (List.length_filter_le _ _) (List.length_filter_le _ _)
      unfold bfsM2
      simp only [bfsStep, hq, hins, List.map_append, List.sum_append, List.map_cons,
        List.sum_cons, if_pos hu]
      omega
  · left
    unfold bfsM1
    have hsub : (((bfsStep ts σ).queue.toFinset ∪ bfsUniv ts) \
        (bfsStep ts σ).visited.toFinset) ⊆
        (((σ.queue.toFinset ∪ bfsUniv ts) \ σ.visited.toFinset).erase u) := by
      intro x hx
      rw [Finset.mem_sdiff] at hx
      obtain ⟨hxS, hxV⟩ := hx
      have hxS' := bfs_S_sub ts σ u rest hq hxS
      have hxne : x ≠ u := by
        intro h
        apply hxV
        simp only [bfsStep, hq, setInsert, if_neg hu, List.mem_toFinset, h]
        simp
      have hxnv : x ∉ σ.visited.toFinset := fun h => hxV (bfs_V_sub ts σ h)
      rw [Finset.mem_erase, Finset.mem_sdiff]
      exact ⟨hxne, hxS', hxnv⟩
    have hmem : u ∈ (σ.queue.toFinset ∪ bfsUniv ts) \ σ.visited.toFinset := by
      rw [Finset.mem_sdiff]
      constructor
      · simp [hq]
      · simpa using hu
    exact lt_of_le_of_lt (Finset.card_le_card hsub) (Finset.card_erase_lt_of_mem hmem)

/-- Termination of the breadth-first traversal: from any loop state the
queue eventually empties. -/
def bfs_halts (ts : List Transition) (σ0 : BfsState) :
    ∃ n, ((bfsStep ts)^[n] σ0).queue = [] := by
  have wf : WellFounded (Prod.Lex (fun a b : Nat => a < b) (fun a b : Nat => a < b)) :=
    WellFounded.prod_lex wellFounded_lt wellFounded_lt
  suffices h : ∀ p : Nat × Nat, ∀ σ, bfsM1 ts σ = p.1 → bfsM2 ts σ = p.2 →
      ∃ n, ((bfsStep ts)^[n] σ).queue = [] from h (bfsM1 ts σ0, bfsM2 ts σ0) σ0 rfl rfl
  intro p
  induction p using wf.induction with
  | _ p IH =>
    obtain ⟨p1, p2⟩ := p
    intro σ h1 h2
    simp only at h1 h2
    subst h1
    subst h2
    cases hq : σ.queue with
    | nil => exact ⟨0, hq⟩
    | cons u rest =>
      have hstep : ∃ n, ((bfsStep ts)^[n] (bfsStep ts σ)).queue = [] := by
        rcases bfs_dec ts σ u rest hq with hlt | ⟨heq, hlt2⟩
        · refine IH (bfsM1 ts (bfsStep ts σ), bfsM2 ts (bfsStep ts σ)) ?_ _ rfl rfl
          exact Prod.Lex.left _ _ hlt
        · refine IH (bfsM1 ts (bfsStep ts σ), bfsM2 ts (bfsStep ts σ)) ?_ _ rfl rfl
          rw [heq]
          exact Prod.Lex.right _ hlt2
      obtain ⟨n, hn⟩ := hstep
      exact ⟨n + 1, by rw [Function.iterate_succ_apply]; exact hn⟩

/-- Number of loop iterations the traversal of
`remove_inaccessible_states` performs before its queue empties. -/
def bfsSteps (ts : List Transition) (s : String) : Nat :=
  Nat.find (bfs_halts ts (bfsInit s))

/-- The visited set computed by the breadth-first traversal of
`remove_inaccessible_states` started at `s` (lib.rs lines 186-209). -/
def bfsFrom (ts : List Transition) (s : String) : List String :=
  ((bfsStep ts)^[bfsSteps ts s] (bfsInit s)).visited

/-- Rust `Dfa::remove_inaccessible_states` (lib.rs lines 186-213): keep exactly
the transitions whose source and destination were both visited. -/
def remove_inaccessible_states (d : Dfa) : Dfa :=
  { d with
    transitions := d.transitions.filter (fun t =>
      decide (t.state ∈ bfsFrom d.transitions d.start_state) &&
        decide (t.next_state ∈ bfsFrom d.transitions d.start_state)) }

/-- Reachability in the transition graph: the states connected to `s` by a
directed path of transitions. -/
inductive Reachable (ts : List Transition) (s : String) : String → Prop where
  | refl : Reachable ts s s
  | step : ∀ {u : String} {t : Transition},
      Reachable ts s u → t ∈ ts → t.state = u → Reachable ts s t.next_state

/-- Placement of an indistinguishable pair into the new equivalence classes
(lib.rs lines 106-124): the first class containing either member of the pair
absorbs both; otherwise a new class of the two members is appended. -/
def groupInsert : List (List String) → String × String → List (List String)
  | [], p => [setInsert p.2 (setInsert p.1 [])]
  | K :: rest, p =>
    if p.1 ∈ K ∨ p.2 ∈ K then (setInsert p.2 (setInsert p.1 K)) :: rest
    else K :: groupInsert rest p

/-- Building `new_equivalence_classes` from the pair list (lib.rs
lines 105-124). -/
def buildClasses (ps : List (String × String)) : List (List String) :=
  ps.foldl groupInsert []

/-- The pairs contributed by one equivalence class: all ordered pairs of its
members (including the diagonal) that the predicate `e` declares
indistinguishable, in iteration order (lib.rs lines 96-103). -/
def classPairs (e : String → String → Bool) (c : List String) : List (String × String) :=
  c.flatMap (fun s1 => (c.filter (fun s2 => e s1 s2)).map (fun s2 => (s1, s2)))

/-- The list `indistinguishable_states_list` (lib.rs lines 94-104): the pairs of all
classes, class by class. -/
def indistPairsE (e : String → String → Bool) (cs : List (List String)) :
    List (String × String) :=
  cs.flatMap (classPairs e)

/-- Equality of two classes as sets, mirroring `HashSet` equality in Rust. -/
def listSetEqB (a b : List String) : Bool :=
  a.all (fun x => decide (x ∈ b)) && b.all (fun x => decide (x ∈ a))

/-- Equality of two optional classes, mirroring `Option<&HashSet>` equality. -/
def optionSetEqB : Option (List String) → Option (List String) → Bool
  | none, none => true
  | some a, some b => listSetEqB a b
  | _, _ => false

/-- The class the DFA transitions into from `s` on `i` (lib.rs
lines 172-175): look up the transition, then find the first class containing
its destination; `none` if there is no rule (or no containing class). -/
def nextClassFor (d : Dfa) (classes : List (List String)) (s : String) (i : Char) :
    Option (List String) :=
  (get_transition d s i).bind (fun t => classes.find? (fun c => decide (t.next_state ∈ c)))

/-- Rust `Dfa::are_states_indistinguishable` (lib.rs lines 162-181): equal states
are indistinguishable; otherwise the two states must transition into
set-equal classes for every symbol of the working alphabet. -/
def are_states_indistinguishable (d : Dfa) (s1 s2 : String) (symbols : List Char)
    (classes : List (List String)) : Bool :=
  s1 == s2 ||
    symbols.all (fun i =>
      optionSetEqB (nextClassFor d classes s1 i) (nextClassFor d classes s2 i))

/-- The initial partition of `minimize` (lib.rs lines 85-88): the accept
states, then every other known state. -/
def initialClasses (d : Dfa) : List (List String) :=
  [d.accept_states, (get_all_states d).filter (fun s => decide (s ∉ d.accept_states))]

/-- One round of the refinement loop of `minimize` (lib.rs lines 92-130):
collect the indistinguishable pairs of the current classes and regroup them. -/
def refineStep (d : Dfa) (cs : List (List String)) : List (List String) :=
  buildClasses (indistPairsE
    (fun s1 s2 => are_states_indistinguishable d s1 s2 (get_all_input_symbols d) cs) cs)

/-- The equivalence classes after `n` refinement rounds. -/
def classesAt (d : Dfa) (n : Nat) : List (List String) :=
  (refineStep d)^[n] (initialClasses d)

/-- All members of all classes. -/
def classElems (cs : List (List String)) : List String :=
  cs.flatMap id

/-- Both components of all pairs. -/
def pairElems (ps : List (String × String)) : List String :=
  ps.flatMap (fun p => [p.1, p.2])

/-- Membership in the classes after a `groupInsert` comes from the old
classes or from the inserted pair. -/
def mem_classElems_groupInsert (cs : List (List String)) (p : String × String) (x : String)
    (hx : x ∈ classElems (groupInsert cs p)) :
    x ∈ classElems cs ∨ x = p.1 ∨ x = p.2 := by
  induction cs with
  | nil =>
    right
    have h1 : setInsert p.1 [] = [p.1] := by simp [setInsert]
    simp only [groupInsert, classElems, List.flatMap_cons, List.flatMap_nil, id,
      List.append_nil, h1] at hx
    simp only [setInsert] at hx
    split at hx <;> simp_all
  | cons K rest ih =>
    simp only [groupInsert] at hx
    split at hx
    · simp only [classElems, List.flatMap_cons, id, List.mem_append] at hx ⊢
      rcases hx with hx | hx
      · unfold setInsert at hx
        split at hx
        · split at hx <;> simp_all <;> tauto
        · split at hx <;> simp_all <;> tauto
      · tauto
    · simp only [classElems, List.flatMap_cons, id, List.mem_append] at hx ⊢
      rcases hx with hx | hx
      · tauto
      · rcases ih hx with h | h
        · left; right; exact h
        · tauto

/-- Membership in the old classes survives a `groupInsert`. -/
def mem_classElems_groupInsert_of_mem (cs : List (List String)) (p : String × String)
    (x : String) (hx : x ∈ classElems cs) : x ∈ classElems (groupInsert cs p) := by
  induction cs with
  | nil => simp [classElems] at hx
  | cons K rest ih =>
    simp only [classElems, List.flatMap_cons, id, List.mem_append] at hx
    simp only [groupInsert]
    split
    · simp only [classElems, List.flatMap_cons, id, List.mem_append]
      rcases hx with hx | hx
      · left
        simp only [setInsert]
        split <;> split <;> simp_all
      · right; exact hx
    · simp only [classElems, List.flatMap_cons, id, List.mem_append]
      rcases hx with hx | hx
      · left; exact hx
      · right; exact ih hx

/-- When some existing class contains a member of the pair, `groupInsert`
keeps the number of classes. -/
def groupInsert_length_hit (cs : List (List String)) (p : String × String)
    (h : ∃ K ∈ cs, p.1 ∈ K ∨ p.2 ∈ K) :
    (groupInsert cs p).length = cs.length := by
  induction cs with
  | nil => simp at h
  | cons K rest ih =>
    simp only [groupInsert]
    split
    · simp
    · rename_i hK
      simp only [List.length_cons]
      rw [ih]
      obtain ⟨K', hK', hm⟩ := h
      rcases List.mem_cons.mp hK' with rfl | hK'
      · exact absurd hm hK
      · exact ⟨K', hK', hm⟩

/-- When no existing class contains a member of the pair, `groupInsert`
appends a fresh class of the two members. -/
def groupInsert_fresh (cs : List (List String)) (p : String × String)
    (h : ∀ K ∈ cs, p.1 ∉ K ∧ p.2 ∉ K) :
    groupInsert cs p = cs ++ [setInsert p.2 (setInsert p.1 [])] := by
  induction cs with
  | nil => simp [groupInsert]
  | cons K rest ih =>
    have hK := h K (List.mem_cons_self K rest)
    simp only [groupInsert, if_neg (by tauto : ¬(p.1 ∈ K ∨ p.2 ∈ K))]
    rw [ih (fun K' hK' => h K' (List.mem_cons_of_mem K hK'))]
    simp

/-- Membership in `classElems` is membership in some class. -/
def mem_classElems (cs : List (List String)) (x : String) :
    x ∈ classElems cs ↔ ∃ K ∈ cs, x ∈ K := by
  simp [classElems, List.mem_flatMap]

/-- The members list `classElems` distributes over class-list concatenation. -/
def classElems_append (cs ds : List (List String)) :
    classElems (cs ++ ds) = classElems cs ++ classElems ds := by
  simp [classElems]

/-- A `groupInsert` step keeps the class count bounded by the number of
distinct members. -/
def groupInsert_card_inv (cs : List (List String)) (p : String × String)
    (h : cs.length ≤ (classElems cs).toFinset.card) :
    (groupInsert cs p).length ≤ (classElems (groupInsert cs p)).toFinset.card := by
  by_cases hhit : ∃ K ∈ cs, p.1 ∈ K ∨ p.2 ∈ K
  · rw [groupInsert_length_hit cs p hhit]
    refine le_trans h (Finset.card_le_card ?_)
    intro x hx
    rw [List.mem_toFinset] at hx ⊢
    exact mem_classElems_groupInsert_of_mem cs p x hx
  · push_neg at hhit
    have hmiss : ∀ K ∈ cs, p.1 ∉ K ∧ p.2 ∉ K := by
      intro K hK
      have := hhit K hK
      tauto
    rw [groupInsert_fresh cs p hmiss]
    have hp1 : p.1 ∉ (classElems cs).toFinset := by
      rw [List.mem_toFinset, mem_classElems]
      rintro ⟨K, hK, hm⟩
      exact (hmiss K hK).1 hm
    have hsub : insert p.1 (classElems cs).toFinset ⊆
        (classElems (cs ++ [setInsert p.2 (setInsert p.1 [])])).toFinset := by
      intro x hx
      rw [List.mem_toFinset]
      rw [classElems_append]
      rcases Finset.mem_insert.mp hx with rfl | hx
      · refine List.mem_append_right _ ?_
        have h1 : setInsert p.1 [] = [p.1] := by simp [setInsert]
        have h2 : classElems [setInsert p.2 (setInsert p.1 [])] = setInsert p.2 [p.1] := by
          rw [h1]
          simp [classElems]
        rw [h2, setInsert]
        split <;> simp
      · exact List.mem_append_left _ (List.mem_toFinset.mp hx)
    have := Finset.card_le_card hsub
    rw [Finset.card_insert_of_not_mem hp1] at this
    simp only [List.length_append, List.length_cons, List.length_nil]
    omega

/-- Folding `groupInsert` keeps the class count bounded by the number of
distinct members. -/
def buildClasses_card_inv (ps : List (String × String)) :
    ∀ cs : List (List String), cs.length ≤ (classElems cs).toFinset.card →
    (List.foldl groupInsert cs ps).length ≤
      (classElems (List.foldl groupInsert cs ps)).toFinset.card := by
  induction ps with
  | nil => intro cs h; simpa using h
  | cons p rest ih =>
    intro cs h
    simp only [List.foldl_cons]
    exact ih (groupInsert cs p) (groupInsert_card_inv cs p h)

/-- Members of folded classes come from the seed classes or the pairs. -/
def foldl_groupInsert_elems_sub (ps : List (String × String)) :
    ∀ cs : List (List String), ∀ x ∈ classElems (List.foldl groupInsert cs ps),
    x ∈ classElems cs ∨ x ∈ pairElems ps := by
  induction ps with
  | nil => intro cs x hx; exact Or.inl hx
  | cons p rest ih =>
    intro cs x hx
    simp only [List.foldl_cons] at hx
    rcases ih (groupInsert cs p) x hx with h | h
    · rcases mem_classElems_groupInsert cs p x h with h' | h' | h'
      · exact Or.inl h'
      · right
        simp [pairElems, h']
      · right
        simp [pairElems, h']
    · right
      simp only [pairElems, List.flatMap_cons, List.mem_append] at h ⊢
      tauto

/-- Both members of an emitted pair belong to the class that emitted it. -/
def mem_classPairs (e : String → String → Bool) (c : List String) (p : String × String)
    (hp : p ∈ classPairs e c) : p.1 ∈ c ∧ p.2 ∈ c := by
  simp only [classPairs, List.mem_flatMap, List.mem_map] at hp
  obtain ⟨s1, hs1, s2, hs2, rfl⟩ := hp
  exact ⟨hs1, (List.mem_filter.mp hs2).1⟩

/-- Components of the collected pairs are members of the current classes. -/
def pairElems_indist_sub (e : String → String → Bool) (cs : List (List String))
    (x : String) (hx : x ∈ pairElems (indistPairsE e cs)) : x ∈ classElems cs := by
  simp only [pairElems, List.mem_flatMap, List.mem_cons] at hx
  obtain ⟨p, hp, hx⟩ := hx
  simp only [indistPairsE, List.mem_flatMap] at hp
  obtain ⟨c, hc, hp⟩ := hp
  have := mem_classPairs e c p hp
  rw [mem_classElems]
  rcases hx with rfl | rfl | hx
  · exact ⟨c, hc, this.1⟩
  · exact ⟨c, hc, this.2⟩
  · simp at hx

/-- One refinement round: class count bounded by distinct members. -/
def refineStep_len_le (d : Dfa) (cs : List (List String)) :
    (refineStep d cs).length ≤ (classElems (refineStep d cs)).toFinset.card := by
  unfold refineStep buildClasses
  exact buildClasses_card_inv _ [] (by simp [classElems])

/-- One refinement round never adds class members. -/
def refineStep_elems_sub (d : Dfa) (cs : List (List String)) (x : String)
    (hx : x ∈ classElems (refineStep d cs)) : x ∈ classElems cs := by
  unfold refineStep buildClasses at hx
  rcases foldl_groupInsert_elems_sub _ [] x hx with h | h
  · simp [classElems] at h
  · exact pairElems_indist_sub _ cs x h

/-- Members of the classes after any number of rounds were members of the
initial classes. -/
def classesAt_elems_sub (d : Dfa) (n : Nat) (x : String)
    (hx : x ∈ classElems (classesAt d n)) : x ∈ classElems (initialClasses d) := by
  induction n with
  | zero => exact hx
  | succ n ih =>
    have hstep : classesAt d (n + 1) = refineStep d (classesAt d n) := by
      simp [classesAt, Function.iterate_succ_apply']
    rw [hstep] at hx
    exact ih (refineStep_elems_sub d (classesAt d n) x hx)

/-- The distinct members of the classes never grow across rounds. -/
def classesAt_card_le (d : Dfa) (n : Nat) :
    (classElems (classesAt d n)).toFinset.card ≤
      (classElems (initialClasses d)).toFinset.card := by
  refine Finset.card_le_card ?_
  intro x hx
  rw [List.mem_toFinset] at hx ⊢
  exact classesAt_elems_sub d n x hx

/-- Termination of the refinement loop of `minimize` (lib.rs lines 92-130):
some round fails to increase the number of equivalence classes. -/
def refine_halts (d : Dfa) :
    ∃ n, ¬((classesAt d n).length < (classesAt d (n + 1)).length) := by
  by_contra hall
  push_neg at hall
  have hgrow : ∀ n, n ≤ (classesAt d n).length := by
    intro n
    induction n with
    | zero => exact Nat.zero_le _
    | succ n ih => exact Nat.lt_of_le_of_lt ih (hall n)
  have hK : ∀ n, (classesAt d (n + 1)).length ≤
      (classElems (initialClasses d)).toFinset.card := by
    intro n
    have h1 : classesAt d (n + 1) = refineStep d (classesAt d n) := by
      simp [classesAt, Function.iterate_succ_apply']
    calc (classesAt d (n + 1)).length
        ≤ (classElems (classesAt d (n + 1))).toFinset.card := by
          rw [h1]; exact refineStep_len_le d (classesAt d n)
      _ ≤ (classElems (initialClasses d)).toFinset.card := classesAt_card_le d (n + 1)
  have h1 := hgrow ((classElems (initialClasses d)).toFinset.card + 1)
  have h2 := hK ((classElems (initialClasses d)).toFinset.card)
  omega

/-- Number of refinement rounds `minimize` performs before breaking out of
its loop (the loop keeps the previous classes when no split occurred). -/
def minimizeRounds (d : Dfa) : Nat :=
  Nat.find (refine_halts d)

/-- The equivalence classes `minimize` ends up with when its refinement loop
breaks (lib.rs lines 125-130): the first ones whose regrouping produces no
additional class. -/
def finalClasses (d : Dfa) : List (List String) :=
  classesAt d (minimizeRounds d)

/-- The new name of a merged class (lib.rs line 142): the first element in
sorted order, i.e. the lexicographically smallest member. -/
def minString (K : List String) : String :=
  (List.insertionSort (fun a b => strLeb a b = true) K).headI

/-- Rust `HashMap::insert` on the renaming map, modelled on association lists:
overwrite the binding if the key is present, otherwise append it. -/
def mapInsert (m : List (String × String)) (k v : String) : List (String × String) :=
  if m.any (fun q => q.1 == k) then m.map (fun q => if q.1 = k then (k, v) else q)
  else m ++ [(k, v)]

/-- Building `renaming_operations` (lib.rs lines 135-146): every member of every
class with more than one member is mapped to the class's smallest member. -/
def renamingOperations (cs : List (List String)) : List (String × String) :=
  cs.foldl (fun m K =>
    if K.length ≤ 1 then m
    else K.foldl (fun m' s => mapInsert m' s (minString K)) m) []

/-- Lookup `renaming_operations.get(name).unwrap_or(name)` (lib.rs lines 151-153). -/
def renameString (m : List (String × String)) (s : String) : String :=
  (List.lookup s m).getD s

/-- The rewrite of one transition through the renaming map (lib.rs
lines 149-154). -/
def renameTransition (m : List (String × String)) (t : Transition) : Transition :=
  { state := renameString m t.state, input := t.input,
    next_state := renameString m t.next_state }

/-- Rust `Itertools::dedup` (lib.rs line 155): collapse runs of consecutive
equal transitions after sorting. -/
def dedupAdj : List Transition → List Transition
  | [] => []
  | [a] => [a]
  | a :: b :: rest => if a = b then dedupAdj (b :: rest) else a :: dedupAdj (b :: rest)

/-- Rust `Dfa::minimize` (lib.rs lines 82-157): prune, refine to a fixed point,
rename every transition through the merged-class map, sort, deduplicate, and
return the renaming map. Only the transition collection of the automaton is
replaced. -/
def minimize (d : Dfa) : Dfa × List (String × String) :=
  let d1 := remove_inaccessible_states d
  let ops := renamingOperations (finalClasses d1)
  ({ d1 with
      transitions :=
        dedupAdj (List.insertionSort transLE (d1.transitions.map (renameTransition ops))) },
    ops)

/-- Follows the spec's words (section 4.4 step 2): a symbol does not
distinguish two states when both lack a rule for it; it distinguishes them
when exactly one lacks a rule; otherwise the block containing the first
destination must equal the block containing the second destination
(expressed per block, membership-wise). -/
def specSymbolAgrees (d : Dfa) (classes : List (List String)) (s1 s2 : String)
    (i : Char) : Prop :=
  match get_transition d s1 i, get_transition d s2 i with
  | none, none => True
  | some t1, some t2 => ∀ c ∈ classes, (t1.next_state ∈ c ↔ t2.next_state ∈ c)
  | _, _ => False

/-- A two-state automaton whose start state `q1` is equivalent to the
smaller-named state `q0`: both accept, and both step to `q0` on `a`. -/
def dfaBug : Dfa :=
  { name := "bug", start_state := "q1", accept_states := ["q0", "q1"],
    transitions := [⟨"q1", 'a', "q0"⟩, ⟨"q0", 'a', "q0"⟩] }

/-- An automaton with two parallel transitions from the start state to the
same destination, on different symbols. -/
def dfaTwoEdges : Dfa :=
  { name := "two-edges", start_state := "q0", accept_states := ["q1"],
    transitions := [⟨"q0", 'a', "q1"⟩, ⟨"q0", 'b', "q1"⟩] }

/-- The automaton of the repository test `create_example_dfa` (lib.rs
lines 225-248): accepts inputs whose 1-characters are all at the end, with
at least one of them. -/
def dfaScenario1 : Dfa :=
  { name := "Accept if all 1 characters are placed at the end and there is at least one 1 character.",
    start_state := "q0", accept_states := ["q1"],
    transitions := [⟨"q0", '0', "q0"⟩, ⟨"q0", '1', "q1"⟩, ⟨"q1", '1', "q1"⟩] }

/-- The nine-state automaton of the repository test
`create_example_dfa_that_can_be_minimized` (lib.rs lines 250-343), with one
inaccessible source state. -/
def dfaExample : Dfa :=
  { name := "", start_state := "q1", accept_states := ["q8"],
    transitions :=
      [⟨"q1", 'a', "q2"⟩, ⟨"q1", 'b', "q3"⟩,
       ⟨"q2", 'a', "q6"⟩, ⟨"q2", 'b', "q4"⟩,
       ⟨"q3", 'a', "q5"⟩, ⟨"q3", 'b', "q6"⟩,
       ⟨"q4", 'a', "q2"⟩, ⟨"q4", 'b', "q6"⟩,
       ⟨"q5", 'a', "q6"⟩, ⟨"q5", 'b', "q3"⟩,
       ⟨"q6", 'a', "q8"⟩, ⟨"q6", 'b', "q7"⟩,
       ⟨"q7", 'a', "q8"⟩, ⟨"q7", 'b', "q7"⟩,
       ⟨"q8", 'a', "q8"⟩, ⟨"q8", 'b', "q8"⟩,
       ⟨"inaccessible state", 'a', "q8"⟩] }

/-- The reachable part of `dfaExample`: everything except the transition
leaving the inaccessible state. -/
def dfaExamplePruned : Dfa :=
  { name := "", start_state := "q1", accept_states := ["q8"],
    transitions :=
      [⟨"q1", 'a', "q2"⟩, ⟨"q1", 'b', "q3"⟩,
       ⟨"q2", 'a', "q6"⟩, ⟨"q2", 'b', "q4"⟩,
       ⟨"q3", 'a', "q5"⟩, ⟨"q3", 'b', "q6"⟩,
       ⟨"q4", 'a', "q2"⟩, ⟨"q4", 'b', "q6"⟩,
       ⟨"q5", 'a', "q6"⟩, ⟨"q5", 'b', "q3"⟩,
       ⟨"q6", 'a', "q8"⟩, ⟨"q6", 'b', "q7"⟩,
       ⟨"q7", 'a', "q8"⟩, ⟨"q7", 'b', "q7"⟩,
       ⟨"q8", 'a', "q8"⟩, ⟨"q8", 'b', "q8"⟩] }

theorem checkAux_spec (d : Dfa) : ∀ (w : List Char) (cur : String),
    ((checkAux d cur w).2.length = w.length ∧
      (checkAux d cur w).1 =
        decide ((checkAux d cur w).2.getLastD cur ∈ d.accept_states)) ∨
    ((checkAux d cur w).1 = false ∧ ∃ k, k < w.length ∧
      (checkAux d cur w).2.length = k ∧
      get_transition d ((checkAux d cur w).2.getLastD cur) (w.getD k 'a') = none) := by
  intro w
  induction w with
  | nil =>
    intro cur
    left
    simp [checkAux]
  | cons c rest ih =>
    intro cur
    cases htr : get_transition d cur c with
    | none =>
      right
      have hunf : checkAux d cur (c :: rest) = (false, []) := by
        simp [checkAux, htr]
      rw [hunf]
      exact ⟨rfl, 0, by simp, rfl, htr⟩
    | some t =>
      have hunf : checkAux d cur (c :: rest) =
          ((checkAux d t.next_state rest).1,
            t.next_state :: (checkAux d t.next_state rest).2) := by
        simp [checkAux, htr]
      rcases ih t.next_state with ⟨hlen, hacc⟩ | ⟨hfalse, k, hk, hlen, hnone⟩
      · left
        rw [hunf]
        constructor
        · simp only [List.length_cons, hlen]
        · rw [List.getLastD_cons]
          exact hacc
      · right
        rw [hunf]
        refine ⟨hfalse, k + 1, Nat.succ_lt_succ hk, by simp only [List.length_cons, hlen], ?_⟩
        rw [List.getLastD_cons, List.getD_cons_succ]
        exact hnone

/-- C3: the simulator contract of `check`: the trace begins with the start
state; when a symbol has no applicable rule from the last state of the
trace, `check` returns `(false, trace)` where the trace length is the number
of consumed symbols plus one and the failing symbol added no state; when the
whole input is consumed, it returns whether the last state of the trace is
an accept state, together with the full-length trace. -/
theorem check_simulator_contract (d : Dfa) (w : List Char) :
    (check d w).2.head? = some d.start_state ∧
    (((check d w).2.length = w.length + 1 ∧
        (check d w).1 = decide ((check d w).2.getLastD "" ∈ d.accept_states)) ∨
      ((check d w).1 = false ∧ ∃ k, k < w.length ∧ (check d w).2.length = k + 1 ∧
        get_transition d ((check d w).2.getLastD "") (w.getD k 'a') = none)) := by
  have hc2 : (check d w).2 = d.start_state :: (checkAux d d.start_state w).2 := rfl
  have hc1 : (check d w).1 = (checkAux d d.start_state w).1 := rfl
  refine ⟨by rw [hc2, List.head?_cons], ?_⟩
  rcases checkAux_spec d w d.start_state with ⟨hlen, hacc⟩ | ⟨hfalse, k, hk, hlen, hnone⟩
  · left
    constructor
    · rw [hc2, List.length_cons, hlen]
    · rw [hc1, hc2, List.getLastD_cons]
      exact hacc
  · right
    refine ⟨by rw [hc1]; exact hfalse, k, hk, by rw [hc2, List.length_cons, hlen], ?_⟩
    rw [hc2, List.getLastD_cons]
    exact hnone

theorem checkAux_fst_eq_testAux (d : Dfa) : ∀ (w : List Char) (cur : String),
    (checkAux d cur w).1 = testAux d cur w := by
  intro w
  induction w with
  | nil => intro cur; simp [checkAux, testAux]
  | cons c rest ih =>
    intro cur
    cases htr : get_transition d cur c with
    | none => simp [checkAux, testAux, htr]
    | some t => simp [checkAux, testAux, htr, ih t.next_state]

/-- C4: the simplified variant `test` returns only a boolean, and for every
automaton and input the boolean component of `check` equals `test`. -/
theorem check_fst_eq_test (d : Dfa) (w : List Char) :
    (check d w).1 = test d w :=
  checkAux_fst_eq_testAux d w d.start_state

theorem find?_first_characterization (p : Transition → Bool) (l : List Transition)
    (tr : Transition) :
    l.find? p = some tr ↔
      ∃ l1 l2, l = l1 ++ tr :: l2 ∧ p tr = true ∧ ∀ u ∈ l1, ¬ p u = true := by
  induction l with
  | nil => simp
  | cons a as ih =>
    by_cases hpa : p a = true
    · rw [List.find?_cons_of_pos as hpa]
      constructor
      · intro h
        rw [Option.some_inj] at h
        subst h
        exact ⟨[], as, rfl, hpa, by simp⟩
      · rintro ⟨l1, l2, hdec, hptr, hfirst⟩
        cases l1 with
        | nil =>
          simp only [List.nil_append, List.cons.injEq] at hdec
          rw [hdec.1]
        | cons b l1' =>
          simp only [List.cons_append, List.cons.injEq] at hdec
          exact absurd (hdec.1 ▸ hpa) (hfirst b (List.mem_cons_self b l1'))
    · rw [List.find?_cons_of_neg as hpa]
      rw [ih]
      constructor
      · rintro ⟨l1, l2, hdec, hptr, hfirst⟩
        refine ⟨a :: l1, l2, by rw [hdec]; rfl, hptr, ?_⟩
        intro u hu
        rcases List.mem_cons.mp hu with rfl | hu
        · exact hpa
        · exact hfirst u hu
      · rintro ⟨l1, l2, hdec, hptr, hfirst⟩
        cases l1 with
        | nil =>
          simp only [List.nil_append, List.cons.injEq] at hdec
          exact absurd (hdec.1 ▸ hptr) hpa
        | cons b l1' =>
          simp only [List.cons_append, List.cons.injEq] at hdec
          exact ⟨l1', l2, hdec.2, hptr,
            fun u hu => hfirst u (List.mem_cons_of_mem b hu)⟩

/-- C10: `get_transition` is a first-match lookup: it returns `none` exactly
when no stored transition matches the state and symbol, and it returns a
transition exactly when that transition matches and every transition stored
before it does not. -/
theorem get_transition_first_match (d : Dfa) (s : String) (i : Char) :
    (get_transition d s i = none ↔
      ∀ t ∈ d.transitions, ¬(t.state = s ∧ t.input = i)) ∧
    (∀ tr : Transition, get_transition d s i = some tr ↔
      ∃ l1 l2, d.transitions = l1 ++ tr :: l2 ∧ tr.state = s ∧ tr.input = i ∧
        ∀ u ∈ l1, ¬(u.state = s ∧ u.input = i)) := by
  constructor
  · rw [get_transition, List.find?_eq_none]
    constructor
    · intro h t ht
      have := h t ht
      simpa using this
    · intro h t ht
      have := h t ht
      simpa using this
  · intro tr
    rw [get_transition, find?_first_characterization]
    constructor
    · rintro ⟨l1, l2, hdec, hptr, hfirst⟩
      refine ⟨l1, l2, hdec, ?_, ?_, ?_⟩
      · simpa using (Bool.and_eq_true_iff.mp hptr).1
      · simpa using (Bool.and_eq_true_iff.mp hptr).2
      · intro u hu
        have := hfirst u hu
        simpa using this
    · rintro ⟨l1, l2, hdec, hs, hi, hfirst⟩
      refine ⟨l1, l2, hdec, by simp [hs, hi], ?_⟩
      intro u hu
      have := hfirst u hu
      simpa using this

theorem mem_setInsert (x u : String) (l : List String) :
    x ∈ setInsert u l ↔ x = u ∨ x ∈ l := by
  unfold setInsert
  split
  · rename_i h
    constructor
    · exact Or.inr
    · rintro (rfl | hx)
      · exact h
      · exact hx
  · simp [List.mem_append, or_comm]

theorem mem_pushesFor (ts : List Transition) (v : List String) (u x : String) :
    x ∈ pushesFor ts v u ↔ ∃ t ∈ ts, t.state = u ∧ t.next_state = x ∧ x ∉ v := by
  unfold pushesFor
  simp only [List.mem_map, List.mem_filter, decide_eq_true_eq, beq_iff_eq]
  constructor
  · rintro ⟨t, ⟨⟨ht, hst⟩, hnv⟩, rfl⟩
    exact ⟨t, ht, hst, rfl, hnv⟩
  · rintro ⟨t, ht, hst, rfl, hnv⟩
    exact ⟨t, ⟨⟨ht, hst⟩, hnv⟩, rfl⟩

theorem bfsStep_cons (ts : List Transition) (σ : BfsState) (u : String)
    (rest : List String) (hq : σ.queue = u :: rest) :
    bfsStep ts σ =
      { visited := setInsert u σ.visited,
        queue := rest ++ pushesFor ts (setInsert u σ.visited) u,
        scheduled := σ.scheduled ++ pushesFor ts (setInsert u σ.visited) u } := by
  cases σ with
  | mk v q sc =>
    simp only at hq
    subst hq
    rfl

theorem bfs_queue_stable (ts : List Transition) (σ : BfsState) (h : σ.queue = []) :
    bfsStep ts σ = σ := by
  cases σ with
  | mk v q sc =>
    simp only at h
    subst h
    rfl

theorem bfs_iterate_stable (ts : List Transition) (σ : BfsState) (m k : Nat)
    (h : ((bfsStep ts)^[m] σ).queue = []) :
    (bfsStep ts)^[m + k] σ = (bfsStep ts)^[m] σ := by
  induction k with
  | zero => rfl
  | succ k ih =>
    have : m + (k + 1) = (m + k) + 1 := rfl
    rw [this, Function.iterate_succ_apply', ih]
    exact bfs_queue_stable ts _ h

theorem bfsFrom_eq_of_halt (ts : List Transition) (s : String) (n : Nat)
    (h : ((bfsStep ts)^[n] (bfsInit s)).queue = []) :
    bfsFrom ts s = ((bfsStep ts)^[n] (bfsInit s)).visited := by
  unfold bfsFrom bfsSteps
  have hle : Nat.find (bfs_halts ts (bfsInit s)) ≤ n := Nat.find_min' _ h
  obtain ⟨k, hk⟩ := Nat.le.dest hle
  rw [← hk, bfs_iterate_stable ts (bfsInit s) _ k (Nat.find_spec (bfs_halts ts (bfsInit s)))]

theorem bfs_invariant (ts : List Transition) (s : String) (n : Nat) :
    (∀ v ∈ ((bfsStep ts)^[n] (bfsInit s)).visited, Reachable ts s v) ∧
    (∀ v ∈ ((bfsStep ts)^[n] (bfsInit s)).queue, Reachable ts s v) ∧
    (∀ v ∈ ((bfsStep ts)^[n] (bfsInit s)).visited, ∀ t ∈ ts, t.state = v →
      (t.next_state ∈ ((bfsStep ts)^[n] (bfsInit s)).visited ∨
        t.next_state ∈ ((bfsStep ts)^[n] (bfsInit s)).queue)) ∧
    (s ∈ ((bfsStep ts)^[n] (bfsInit s)).visited ∨
      s ∈ ((bfsStep ts)^[n] (bfsInit s)).queue) := by
  induction n with
  | zero =>
    refine ⟨by simp [bfsInit], ?_, by simp [bfsInit], ?_⟩
    · intro v hv
      simp only [Function.iterate_zero, id, bfsInit, List.mem_singleton] at hv
      subst hv
      exact .refl
    · right
      simp [bfsInit]
  | succ n ih =>
    obtain ⟨h1, h2, h3, h4⟩ := ih
    rw [Function.iterate_succ_apply']
    cases hq : ((bfsStep ts)^[n] (bfsInit s)).queue with
    | nil =>
      rw [bfs_queue_stable ts _ hq]
      exact ⟨h1, h2, h3, h4⟩
    | cons u rest =>
      have hu : Reachable ts s u := h2 u (by rw [hq]; exact List.mem_cons_self u rest)
      rw [bfsStep_cons ts _ u rest hq]
      refine ⟨?_, ?_, ?_, ?_⟩
      · intro v hv
        rcases (mem_setInsert v u _).mp hv with rfl | hv
        · exact hu
        · exact h1 v hv
      · intro v hv
        rcases List.mem_append.mp hv with hv | hv
        · exact h2 v (by rw [hq]; exact List.mem_cons_of_mem u hv)
        · obtain ⟨t, ht, hst, rfl, _⟩ := (mem_pushesFor ts _ u v).mp hv
          exact .step hu ht hst
      · intro v hv t ht hst
        rcases (mem_setInsert v u _).mp hv with rfl | hv
        · by_cases hnv : t.next_state ∈ setInsert v ((bfsStep ts)^[n] (bfsInit s)).visited
          · exact Or.inl hnv
          · refine Or.inr (List.mem_append_right _ ?_)
            exact (mem_pushesFor ts _ v t.next_state).mpr ⟨t, ht, hst, rfl, hnv⟩
        · rcases h3 v hv t ht hst with hin | hin
          · exact Or.inl ((mem_setInsert _ u _).mpr (Or.inr hin))
          · rw [hq] at hin
            rcases List.mem_cons.mp hin with heq | hin
            · exact Or.inl ((mem_setInsert _ u _).mpr (Or.inl heq))
            · exact Or.inr (List.mem_append_left _ hin)
      · rcases h4 with hin | hin
        · exact Or.inl ((mem_setInsert _ u _).mpr (Or.inr hin))
        · rw [hq] at hin
          rcases List.mem_cons.mp hin with heq | hin
          · exact Or.inl ((mem_setInsert _ u _).mpr (Or.inl heq))
          · exact Or.inr (List.mem_append_left _ hin)

theorem mem_bfsFrom (ts : List Transition) (s v : String) :
    v ∈ bfsFrom ts s ↔ Reachable ts s v := by
  constructor
  · intro hv
    exact (bfs_invariant ts s (bfsSteps ts s)).1 v hv
  · intro hv
    have hq : ((bfsStep ts)^[bfsSteps ts s] (bfsInit s)).queue = [] :=
      Nat.find_spec (bfs_halts ts (bfsInit s))
    obtain ⟨h1, h2, h3, h4⟩ := bfs_invariant ts s (bfsSteps ts s)
    have hstart : s ∈ bfsFrom ts s := by
      rcases h4 with h | h
      · exact h
      · rw [hq] at h
        exact absurd h (by simp)
    induction hv with
    | refl => exact hstart
    | step hr ht hst ih =>
      rcases h3 _ ih _ ht hst with h | h
      · exact h
      · rw [hq] at h
        exact absurd h (by simp)

theorem reachable_pruned (d : Dfa) (v : String)
    (hv : Reachable d.transitions d.start_state v) :
    Reachable (remove_inaccessible_states d).transitions d.start_state v := by
  induction hv with
  | refl => exact .refl
  | step hr ht hst ih =>
    rename_i u t
    refine .step ih ?_ hst
    simp only [remove_inaccessible_states, List.mem_filter, Bool.and_eq_true,
      decide_eq_true_eq]
    refine ⟨ht, ?_, ?_⟩
    · rw [mem_bfsFrom, hst]
      exact hst ▸ hr
    · rw [mem_bfsFrom]
      exact .step hr ht hst

/-- C7: the reachability pruner is idempotent: pruning a second time keeps
exactly the transition collection of the first pruning (the whole automaton
is unchanged). -/
theorem pruner_idempotent (d : Dfa) :
    remove_inaccessible_states (remove_inaccessible_states d) =
      remove_inaccessible_states d := by
  have hfix : ∀ x : Dfa,
      x.transitions.filter (fun t =>
        decide (t.state ∈ bfsFrom x.transitions x.start_state) &&
          decide (t.next_state ∈ bfsFrom x.transitions x.start_state)) = x.transitions →
      remove_inaccessible_states x = x := by
    intro x hx
    unfold remove_inaccessible_states
    rw [hx]
  refine hfix _ (List.filter_eq_self.mpr ?_)
  intro t ht
  have hstart : (remove_inaccessible_states d).start_state = d.start_state := rfl
  simp only [remove_inaccessible_states, List.mem_filter, Bool.and_eq_true,
    decide_eq_true_eq] at ht
  obtain ⟨htd, hs, hn⟩ := ht
  simp only [Bool.and_eq_true, decide_eq_true_eq, hstart]
  constructor
  · rw [mem_bfsFrom]
    exact reachable_pruned d t.state ((mem_bfsFrom _ _ _).mp hs)
  · rw [mem_bfsFrom]
    exact reachable_pruned d t.next_state ((mem_bfsFrom _ _ _).mp hn)

/-- C5 (counterexample): on the automaton with two parallel edges from the
start state to `q1`, the traversal schedules `q1` twice before it
terminates, refuting that every state is scheduled exactly once (states are
only marked visited when dequeued, not when scheduled). -/
theorem pruner_schedules_q1_twice :
    ((bfsStep dfaTwoEdges.transitions)^[3] (bfsInit dfaTwoEdges.start_state)).queue = [] ∧
      ((bfsStep dfaTwoEdges.transitions)^[3]
        (bfsInit dfaTwoEdges.start_state)).scheduled.count "q1" = 2 := by
  constructor
  · decide
  · decide

/-- C5 (amended): the traversal marks a state visited when it is dequeued,
so a state can be scheduled more than once; nevertheless, on every automaton
(cycles and self-loops included) the traversal terminates: the queue is
empty after finitely many loop iterations. -/
theorem pruner_traversal_terminates (d : Dfa) :
    ∃ n, ((bfsStep d.transitions)^[n] (bfsInit d.start_state)).queue = [] :=
  bfs_halts d.transitions (bfsInit d.start_state)

/-- C9: `minimize` replaces only the transition collection; the name, the
start state and the accept states are left exactly as they were, even when
the start state or an accept state is renamed inside the rewritten
transitions. -/
theorem minimize_frame (d : Dfa) :
    (minimize d).1.name = d.name ∧ (minimize d).1.start_state = d.start_state ∧
      (minimize d).1.accept_states = d.accept_states :=
  ⟨rfl, rfl, rfl⟩

theorem bfsFrom_dfaBug :
    bfsFrom dfaBug.transitions dfaBug.start_state = ["q1", "q0"] := by
  rw [bfsFrom_eq_of_halt dfaBug.transitions dfaBug.start_state 2 (by decide)]
  decide

theorem prune_dfaBug : remove_inaccessible_states dfaBug = dfaBug := by
  unfold remove_inaccessible_states
  rw [bfsFrom_dfaBug]
  decide

theorem minimizeRounds_dfaBug : minimizeRounds dfaBug = 0 := by
  unfold minimizeRounds
  rw [Nat.find_eq_zero]
  decide

theorem finalClasses_dfaBug : finalClasses dfaBug = [["q0", "q1"], []] := by
  unfold finalClasses
  rw [minimizeRounds_dfaBug]
  decide

theorem minimize_dfaBug_eval :
    minimize dfaBug =
      ({ name := "bug", start_state := "q1", accept_states := ["q0", "q1"],
          transitions := [⟨"q0", 'a', "q0"⟩] },
        [("q0", "q0"), ("q1", "q0")]) := by
  unfold minimize
  simp only [prune_dfaBug, finalClasses_dfaBug]
  decide

theorem bfsFrom_dfaBugMin :
    bfsFrom [(⟨"q0", 'a', "q0"⟩ : Transition)] "q1" = ["q1"] := by
  rw [bfsFrom_eq_of_halt [(⟨"q0", 'a', "q0"⟩ : Transition)] "q1" 1 (by decide)]
  decide

theorem prune_dfaBugMin :
    remove_inaccessible_states
        { name := "bug", start_state := "q1", accept_states := ["q0", "q1"],
          transitions := [⟨"q0", 'a', "q0"⟩] } =
      { name := "bug", start_state := "q1", accept_states := ["q0", "q1"],
        transitions := [] } := by
  unfold remove_inaccessible_states
  simp only [bfsFrom_dfaBugMin]
  decide

theorem minimizeRounds_dfaBugMin :
    minimizeRounds
      { name := "bug", start_state := "q1", accept_states := ["q0", "q1"],
        transitions := [] } = 0 := by
  unfold minimizeRounds
  rw [Nat.find_eq_zero]
  decide

theorem finalClasses_dfaBugMin :
    finalClasses
        { name := "bug", start_state := "q1", accept_states := ["q0", "q1"],
          transitions := [] } = [["q0", "q1"], []] := by
  unfold finalClasses
  rw [minimizeRounds_dfaBugMin]
  decide

theorem minimize_dfaBug_twice_eval :
    minimize
        { name := "bug", start_state := "q1", accept_states := ["q0", "q1"],
          transitions := [⟨"q0", 'a', "q0"⟩] } =
      ({ name := "bug", start_state := "q1", accept_states := ["q0", "q1"],
          transitions := [] },
        [("q0", "q0"), ("q1", "q0")]) := by
  unfold minimize
  simp only [prune_dfaBugMin, finalClasses_dfaBugMin]
  decide

/-- C1 (code bug): on `dfaBug` (two equivalent, both-accepting states with
start state `q1`), `check` accepts the input `a` before `minimize` and
rejects it afterwards: `minimize` rewrites the transitions to use the
representative `q0` but never renames the start state, so the minimized
automaton has no transition out of its start state. -/
theorem minimize_changes_language_on_dfaBug :
    (check dfaBug ['a']).1 = true ∧ (check (minimize dfaBug).1 ['a']).1 = false := by
  refine ⟨by decide, ?_⟩
  rw [minimize_dfaBug_eval]
  decide

/-- C2 (counterexample): running `minimize` a second time does not leave the
transition collection unchanged: after `minimize` on `dfaBug` the
transitions are `[q0 -a-> q0]`, and a second `minimize` prunes them all away
because the start state `q1` was merged away without being renamed. -/
theorem minimize_not_idempotent_on_dfaBug :
    (minimize (minimize dfaBug).1).1.transitions ≠ (minimize dfaBug).1.transitions := by
  simp only [minimize_dfaBug_eval]
  rw [minimize_dfaBug_twice_eval]
  decide

theorem mem_dedupAdj (x : Transition) : ∀ l : List Transition, x ∈ dedupAdj l ↔ x ∈ l := by
  intro l
  induction l with
  | nil => simp [dedupAdj]
  | cons a tail ih =>
    cases tail with
    | nil => simp [dedupAdj]
    | cons b rest =>
      simp only [dedupAdj]
      split
      · rename_i hab
        rw [ih]
        subst hab
        simp only [List.mem_cons]
        tauto
      · rw [List.mem_cons, ih]
        simp only [List.mem_cons]

/-- C2 (amended): after `minimize()` the number of states known to
`get_all_states` is at most the number of states of the pruned automaton
(the states of the minimized automaton are the image of the pruned states
under the renaming map); the idempotence half of the original claim is
refuted by its counterexample. -/
theorem minimize_state_count_le (d : Dfa) :
    (get_all_states (minimize d).1).length ≤
      (get_all_states (remove_inaccessible_states d)).length := by
  have hmin : (minimize d).1.transitions =
      dedupAdj (List.insertionSort transLE
        ((remove_inaccessible_states d).transitions.map
          (renameTransition
            (renamingOperations (finalClasses (remove_inaccessible_states d)))))) := rfl
  have hmem : ∀ x : String,
      x ∈ (minimize d).1.transitions.flatMap (fun t => [t.state, t.next_state]) ↔
      ∃ t0 ∈ (remove_inaccessible_states d).transitions,
        x = renameString
            (renamingOperations (finalClasses (remove_inaccessible_states d))) t0.state ∨
        x = renameString
            (renamingOperations (finalClasses (remove_inaccessible_states d)))
            t0.next_state := by
    intro x
    rw [hmin]
    rw [List.mem_flatMap]
    constructor
    · rintro ⟨t, ht, hx⟩
      rw [mem_dedupAdj, (List.perm_insertionSort transLE _).mem_iff, List.mem_map] at ht
      obtain ⟨t0, ht0, rfl⟩ := ht
      simp only [renameTransition, List.mem_cons, List.mem_singleton] at hx
      rcases hx with rfl | rfl | h
      · exact ⟨t0, ht0, Or.inl rfl⟩
      · exact ⟨t0, ht0, Or.inr rfl⟩
      · exact absurd h (by simp)
    · rintro ⟨t0, ht0, hx⟩
      refine ⟨renameTransition
        (renamingOperations (finalClasses (remove_inaccessible_states d))) t0, ?_, ?_⟩
      · rw [mem_dedupAdj, (List.perm_insertionSort transLE _).mem_iff, List.mem_map]
        exact ⟨t0, ht0, rfl⟩
      · rcases hx with rfl | rfl
        · simp [renameTransition]
        · simp [renameTransition]
  have himg : ((minimize d).1.transitions.flatMap
        (fun t => [t.state, t.next_state])).toFinset =
      Finset.image
        (renameString (renamingOperations (finalClasses (remove_inaccessible_states d))))
        (((remove_inaccessible_states d).transitions.flatMap
          (fun t => [t.state, t.next_state])).toFinset) := by
    ext x
    rw [List.mem_toFinset, hmem x, Finset.mem_image]
    constructor
    · rintro ⟨t0, ht0, h | h⟩
      · refine ⟨t0.state, ?_, h.symm⟩
        rw [List.mem_toFinset, List.mem_flatMap]
        exact ⟨t0, ht0, by simp⟩
      · refine ⟨t0.next_state, ?_, h.symm⟩
        rw [List.mem_toFinset, List.mem_flatMap]
        exact ⟨t0, ht0, by simp⟩
    · rintro ⟨y, hy, rfl⟩
      rw [List.mem_toFinset, List.mem_flatMap] at hy
      obtain ⟨t0, ht0, hy⟩ := hy
      simp only [List.mem_cons, List.mem_singleton] at hy
      rcases hy with rfl | rfl | h
      · exact ⟨t0, ht0, Or.inl rfl⟩
      · exact ⟨t0, ht0, Or.inr rfl⟩
      · exact absurd h (by simp)
  calc (get_all_states (minimize d).1).length
      = ((minimize d).1.transitions.flatMap
          (fun t => [t.state, t.next_state])).toFinset.card :=
        (List.card_toFinset _).symm
    _ ≤ (((remove_inaccessible_states d).transitions.flatMap
          (fun t => [t.state, t.next_state])).toFinset).card := by
        rw [himg]
        exact Finset.card_image_le
    _ = (get_all_states (remove_inaccessible_states d)).length := List.card_toFinset _

theorem classes_unique (classes : List (List String))
    (hdisj : List.Pairwise (fun c1 c2 => ∀ x ∈ c1, x ∉ c2) classes)
    (c c' : List String) (hc : c ∈ classes) (hc' : c' ∈ classes) (x : String)
    (hx : x ∈ c) (hx' : x ∈ c') : c = c' := by
  by_contra hne
  have hsymm : Symmetric (fun c1 c2 : List String => ∀ x ∈ c1, x ∉ c2) := by
    intro a b h y hyb hya
    exact h y hya hyb
  exact (List.Pairwise.forall hsymm hdisj hc hc' hne) x hx hx'

theorem find?_mem_congr (classes : List (List String)) (x y : String)
    (h : ∀ c ∈ classes, (x ∈ c ↔ y ∈ c)) :
    classes.find? (fun c => decide (x ∈ c)) = classes.find? (fun c => decide (y ∈ c)) := by
  induction classes with
  | nil => rfl
  | cons c rest ih =>
    have hc := h c (List.mem_cons_self c rest)
    by_cases hx : x ∈ c
    · rw [List.find?_cons_of_pos rest (by simpa using hx),
        List.find?_cons_of_pos rest (by simpa using hc.mp hx)]
    · rw [List.find?_cons_of_neg rest (by simpa using hx),
        List.find?_cons_of_neg rest (by simpa using fun hy => hx (hc.mpr hy))]
      exact ih (fun c' hc' => h c' (List.mem_cons_of_mem c hc'))

theorem listSetEqB_iff (a b : List String) :
    listSetEqB a b = true ↔ ((∀ x ∈ a, x ∈ b) ∧ ∀ x ∈ b, x ∈ a) := by
  simp [listSetEqB, List.all_eq_true]

theorem find?_mem_isSome (classes : List (List String)) (x : String) (c : List String)
    (hc : c ∈ classes) (hx : x ∈ c) :
    ∃ c', classes.find? (fun c' => decide (x ∈ c')) = some c' ∧ x ∈ c' := by
  cases hfind : classes.find? (fun c' => decide (x ∈ c')) with
  | none =>
    rw [List.find?_eq_none] at hfind
    exact absurd (by simpa using hfind c hc) (by simpa using hx)
  | some c' =>
    refine ⟨c', rfl, ?_⟩
    have := List.find?_some hfind
    simpa using this

theorem optionSetEq_iff_spec (d : Dfa) (classes : List (List String))
    (hdisj : List.Pairwise (fun c1 c2 => ∀ x ∈ c1, x ∉ c2) classes)
    (hcov : ∀ t ∈ d.transitions, ∃ c ∈ classes, t.next_state ∈ c)
    (s1 s2 : String) (i : Char) :
    (optionSetEqB (nextClassFor d classes s1 i) (nextClassFor d classes s2 i) = true ↔
      specSymbolAgrees d classes s1 s2 i) := by
  unfold nextClassFor specSymbolAgrees
  cases h1 : get_transition d s1 i with
  | none =>
    cases h2 : get_transition d s2 i with
    | none =>
      show optionSetEqB none none = true ↔ True
      simp [optionSetEqB]
    | some t2 =>
      have ht2 : t2 ∈ d.transitions := List.mem_of_find?_eq_some h2
      obtain ⟨c2, hc2, hin2⟩ := hcov t2 ht2
      obtain ⟨c2', hfind2, _⟩ := find?_mem_isSome classes t2.next_state c2 hc2 hin2
      show optionSetEqB none
          (List.find? (fun c => decide (t2.next_state ∈ c)) classes) = true ↔ False
      rw [hfind2]
      simp [optionSetEqB]
  | some t1 =>
    have ht1 : t1 ∈ d.transitions := List.mem_of_find?_eq_some h1
    obtain ⟨c1, hc1, hin1⟩ := hcov t1 ht1
    obtain ⟨c1', hfind1, hin1'⟩ := find?_mem_isSome classes t1.next_state c1 hc1 hin1
    cases h2 : get_transition d s2 i with
    | none =>
      show optionSetEqB
          (List.find? (fun c => decide (t1.next_state ∈ c)) classes) none = true ↔ False
      rw [hfind1]
      simp [optionSetEqB]
    | some t2 =>
      have ht2 : t2 ∈ d.transitions := List.mem_of_find?_eq_some h2
      obtain ⟨c2, hc2, hin2⟩ := hcov t2 ht2
      obtain ⟨c2', hfind2, hin2'⟩ := find?_mem_isSome classes t2.next_state c2 hc2 hin2
      have hc1'mem : c1' ∈ classes := List.mem_of_find?_eq_some hfind1
      have hc2'mem : c2' ∈ classes := List.mem_of_find?_eq_some hfind2
      show optionSetEqB (List.find? (fun c => decide (t1.next_state ∈ c)) classes)
          (List.find? (fun c => decide (t2.next_state ∈ c)) classes) = true ↔
          ∀ c ∈ classes, (t1.next_state ∈ c ↔ t2.next_state ∈ c)
      rw [hfind1, hfind2]
      show listSetEqB c1' c2' = true ↔ _
      rw [listSetEqB_iff]
      constructor
      · rintro ⟨hab, hba⟩ c hc
        constructor
        · intro hx1
          have : c = c1' := classes_unique classes hdisj c c1' hc hc1'mem _ hx1 hin1'
          subst this
          exact hba _ hin2'
        · intro hx2
          have : c = c2' := classes_unique classes hdisj c c2' hc hc2'mem _ hx2 hin2'
          subst this
          exact hab _ hin1'
      · intro hiff
        have heq : c1' = c2' := by
          have := find?_mem_congr classes t1.next_state t2.next_state hiff
          rw [hfind1, hfind2] at this
          exact Option.some_inj.mp this
        subst heq
        exact ⟨fun x hx => hx, fun x hx => hx⟩

/-- C8: the missing-rule treatment of `are_states_indistinguishable`: for
pairwise-disjoint classes covering every transition destination, two states
are indistinguishable exactly when, for every symbol of the working
alphabet, the blocks of their lookup destinations agree, where the absence
of a rule is a distinct mutually-agreeing outcome (both missing: the symbol
does not distinguish; exactly one missing: it does). -/
theorem are_states_indistinguishable_spec (d : Dfa) (s1 s2 : String)
    (symbols : List Char) (classes : List (List String))
    (hdisj : List.Pairwise (fun c1 c2 => ∀ x ∈ c1, x ∉ c2) classes)
    (hcov : ∀ t ∈ d.transitions, ∃ c ∈ classes, t.next_state ∈ c) :
    (are_states_indistinguishable d s1 s2 symbols classes = true ↔
      ∀ i ∈ symbols, specSymbolAgrees d classes s1 s2 i) := by
  unfold are_states_indistinguishable
  rw [Bool.or_eq_true, beq_iff_eq, List.all_eq_true]
  constructor
  · rintro (rfl | hall)
    · intro i hi
      unfold specSymbolAgrees
      cases h : get_transition d s1 i with
      | none => simp
      | some t => simp
    · intro i hi
      exact (optionSetEq_iff_spec d classes hdisj hcov s1 s2 i).mp (hall i hi)
  · intro h
    refine Or.inr ?_
    intro i hi
    exact (optionSetEq_iff_spec d classes hdisj hcov s1 s2 i).mpr (h i hi)

/-- C8 (witness): the hypotheses of the indistinguishability
characterization hold at a concrete automaton and class list, and the
characterization applies there. -/
theorem are_states_indistinguishable_spec_witness :
    (List.Pairwise (fun c1 c2 => ∀ x ∈ c1, x ∉ c2)
        [["q0", "q1"], ([] : List String)] ∧
      ∀ t ∈ dfaBug.transitions,
        ∃ c ∈ [["q0", "q1"], ([] : List String)], t.next_state ∈ c) ∧
    (are_states_indistinguishable dfaBug "q0" "q1" ['a'] [["q0", "q1"], []] = true ↔
      ∀ i ∈ ['a'], specSymbolAgrees dfaBug [["q0", "q1"], []] "q0" "q1" i) :=
  ⟨⟨by decide, by decide⟩,
    are_states_indistinguishable_spec dfaBug "q0" "q1" ['a'] [["q0", "q1"], []]
      (by decide) (by decide)⟩

theorem charListLeb_refl : ∀ a : List Char, charListLeb a a = true := by
  intro a
  induction a with
  | nil => rfl
  | cons x xs ih => simp [charListLeb, ih]

theorem charListLeb_total : ∀ a b : List Char,
    charListLeb a b = true ∨ charListLeb b a = true := by
  intro a
  induction a with
  | nil => intro b; left; rfl
  | cons x xs ih =>
    intro b
    cases b with
    | nil => right; rfl
    | cons y ys =>
      rcases lt_trichotomy x y with hxy | hxy | hxy
      · left
        simp [charListLeb, hxy]
      · subst hxy
        rcases ih ys with h | h
        · left
          simp [charListLeb, h]
        · right
          simp [charListLeb, h]
      · right
        simp [charListLeb, hxy]

theorem charListLeb_trans : ∀ a b c : List Char,
    charListLeb a b = true → charListLeb b c = true → charListLeb a c = true := by
  intro a
  induction a with
  | nil => intro b c _ _; rfl
  | cons x xs ih =>
    intro b c hab hbc
    cases b with
    | nil => simp [charListLeb] at hab
    | cons y ys =>
      cases c with
      | nil => simp [charListLeb] at hbc
      | cons z zs =>
        simp only [charListLeb] at hab hbc ⊢
        by_cases hxy : x < y
        · by_cases hyz : y < z
          · simp [lt_trans hxy hyz]
          · by_cases hyz' : y = z
            · subst hyz'
              simp [hxy]
            · simp [hyz, hyz'] at hbc
        · by_cases hxy' : x = y
          · subst hxy'
            by_cases hxz : x < z
            · simp [hxz]
            · by_cases hxz' : x = z
              · subst hxz'
                simp only [lt_irrefl, if_false, if_pos rfl] at hab hbc ⊢
                exact ih ys zs hab hbc
              · simp [hxz, hxz'] at hbc
          · simp [hxy, hxy'] at hab

theorem charListLeb_antisymm : ∀ a b : List Char,
    charListLeb a b = true → charListLeb b a = true → a = b := by
  intro a
  induction a with
  | nil =>
    intro b _ hba
    cases b with
    | nil => rfl
    | cons y ys => simp [charListLeb] at hba
  | cons x xs ih =>
    intro b hab hba
    cases b with
    | nil => simp [charListLeb] at hab
    | cons y ys =>
      simp only [charListLeb] at hab hba
      by_cases hxy : x < y
      · have : ¬ y < x := lt_asymm hxy
        have : ¬ y = x := fun h => absurd (h ▸ hxy) (lt_irrefl x)
        simp_all
      · by_cases hxy' : x = y
        · subst hxy'
          simp only [lt_irrefl, if_false, if_pos rfl] at hab hba
          rw [ih ys hab hba]
        · simp [hxy, hxy'] at hab

theorem strLeb_refl (a : String) : strLeb a a = true :=
  charListLeb_refl a.data

theorem strLeb_total (a b : String) : strLeb a b = true ∨ strLeb b a = true :=
  charListLeb_total a.data b.data

theorem strLeb_trans (a b c : String) :
    strLeb a b = true → strLeb b c = true → strLeb a c = true :=
  charListLeb_trans a.data b.data c.data

theorem strLeb_antisymm (a b : String) :
    strLeb a b = true → strLeb b a = true → a = b := by
  intro hab hba
  exact String.ext (charListLeb_antisymm a.data b.data hab hba)

theorem minString_spec (K : List String) (h : K ≠ []) :
    minString K ∈ K ∧ ∀ x ∈ K, strLeb (minString K) x = true := by
  have hsorted : List.Sorted (fun a b => strLeb a b = true)
      (List.insertionSort (fun a b => strLeb a b = true) K) :=
    @List.sorted_insertionSort String (fun a b => strLeb a b = true) _
      ⟨fun a b => strLeb_total a b⟩ ⟨fun a b c => strLeb_trans a b c⟩ K
  have hperm := List.perm_insertionSort (fun a b => strLeb a b = true) K
  cases hsort : List.insertionSort (fun a b => strLeb a b = true) K with
  | nil =>
    rw [hsort] at hperm
    exact absurd hperm.nil_eq.symm h
  | cons hd tl =>
    have hmin : minString K = hd := by
      unfold minString
      rw [hsort]
      rfl
    rw [hsort] at hperm hsorted
    rw [hmin]
    constructor
    · exact hperm.mem_iff.mp (List.mem_cons_self hd tl)
    · intro x hx
      have hx' := hperm.mem_iff.mpr hx
      rcases List.mem_cons.mp hx' with rfl | hx'
      · exact strLeb_refl x
      · exact (List.sorted_cons.mp hsorted).1 x hx'

theorem lookup_map_replace (k v k' : String) : ∀ m : List (String × String),
    List.lookup k' (m.map (fun q => if q.1 = k then (k, v) else q)) =
      if k' = k ∧ m.any (fun q => q.1 == k) = true then some v
      else List.lookup k' m := by
  intro m
  induction m with
  | nil => simp
  | cons q m' ih =>
    by_cases hq : q.1 = k
    · simp only [List.map_cons, if_pos hq]
      by_cases hk' : k' = k
      · subst hk'
        have hcond : (k' = k' ∧ (q :: m').any (fun q => q.1 == k') = true) := by
          refine ⟨rfl, ?_⟩
          simp only [List.any_cons, Bool.or_eq_true, beq_iff_eq]
          exact Or.inl hq
        rw [if_pos hcond]
        simp [List.lookup_cons]
      · have hcond : ¬(k' = k ∧ (q :: m').any (fun q => q.1 == k) = true) := by
          rintro ⟨h, _⟩
          exact hk' h
        rw [if_neg hcond]
        obtain ⟨q1, q2⟩ := q
        simp only at hq
        subst hq
        simp only [List.lookup_cons, beq_iff_eq, if_neg hk']
        rw [ih]
        have hcond2 : ¬(k' = q1 ∧ m'.any (fun q => q.1 == q1) = true) := by
          rintro ⟨h, _⟩
          exact hk' h
        rw [if_neg hcond2]
        have : (k' == q1) = false := by
          simp [hk']
        simp [List.lookup_cons, this]
    · simp only [List.map_cons, if_neg hq]
      obtain ⟨q1, q2⟩ := q
      simp only at hq
      by_cases hk'q : k' = q1
      · subst hk'q
        have hcond : ¬(k' = k ∧ ((k', q2) :: m').any (fun q => q.1 == k) = true) := by
          rintro ⟨h, _⟩
          exact hq h
        rw [if_neg hcond]
        simp [List.lookup_cons]
      · have hbeq : (k' == q1) = false := by simp [hk'q]
        simp only [List.lookup_cons, hbeq]
        rw [ih]
        by_cases hc : k' = k ∧ m'.any (fun q => q.1 == k) = true
        · rw [if_pos hc]
          have : k' = k ∧ ((q1, q2) :: m').any (fun q => q.1 == k) = true := by
            refine ⟨hc.1, ?_⟩
            simp only [List.any_cons, Bool.or_eq_true]
            exact Or.inr hc.2
          rw [if_pos this]
        · rw [if_neg hc]
          by_cases hc2 : k' = k ∧ ((q1, q2) :: m').any (fun q => q.1 == k) = true
          · exfalso
            obtain ⟨hkk, hany2⟩ := hc2
            simp only [List.any_cons, Bool.or_eq_true, beq_iff_eq] at hany2
            rcases hany2 with h | h
            · exact hq h
            · exact hc ⟨hkk, h⟩
          · rw [if_neg hc2]

theorem lookup_append_fresh (k v k' : String) : ∀ m : List (String × String),
    m.any (fun q => q.1 == k) = false →
    List.lookup k' (m ++ [(k, v)]) =
      if k' = k then some v else List.lookup k' m := by
  intro m
  induction m with
  | nil =>
    intro _
    by_cases hk' : k' = k
    · simp [List.lookup_cons, hk']
    · have hbeq : (k' == k) = false := by simp [hk']
      rw [if_neg hk']
      simp [List.lookup_cons, hbeq]
  | cons q m' ih =>
    intro hany
    obtain ⟨q1, q2⟩ := q
    simp only [List.any_cons, Bool.or_eq_false_iff, beq_eq_false_iff_ne, ne_eq] at hany
    obtain ⟨hq1, hany'⟩ := hany
    by_cases hk'q : k' = q1
    · subst hk'q
      have hne : ¬ k' = k := fun h => hq1 (h ▸ rfl)
      rw [if_neg hne]
      simp [List.lookup_cons]
    · have hbeq : (k' == q1) = false := by simp [hk'q]
      simp only [List.cons_append, List.lookup_cons, hbeq]
      rw [ih (by simpa using hany')]

theorem lookup_mapInsert (m : List (String × String)) (k v k' : String) :
    List.lookup k' (mapInsert m k v) = if k' = k then some v else List.lookup k' m := by
  unfold mapInsert
  by_cases hany : m.any (fun q => q.1 == k) = true
  · rw [if_pos hany, lookup_map_replace]
    by_cases hk' : k' = k
    · rw [if_pos ⟨hk', hany⟩, if_pos hk']
    · rw [if_neg (fun h => hk' h.1), if_neg hk']
  · rw [if_neg hany]
    exact lookup_append_fresh k v k' m (Bool.eq_false_iff.mpr hany)

theorem lookup_foldl_class (w : String) : ∀ (K : List String) (m : List (String × String))
    (k' : String),
    List.lookup k' (K.foldl (fun m' s => mapInsert m' s w) m) =
      if k' ∈ K then some w else List.lookup k' m := by
  intro K
  induction K with
  | nil => intro m k'; simp
  | cons s K' ih =>
    intro m k'
    simp only [List.foldl_cons]
    rw [ih]
    by_cases hk' : k' ∈ K'
    · rw [if_pos hk', if_pos (List.mem_cons_of_mem s hk')]
    · rw [if_neg hk', lookup_mapInsert]
      by_cases hk's : k' = s
      · rw [if_pos hk's, if_pos (by rw [hk's]; exact List.mem_cons_self s K')]
      · rw [if_neg hk's, if_neg (by rw [List.mem_cons]; tauto)]

theorem lookup_renamingOps_untouched (k' : String) : ∀ (cs : List (List String))
    (m : List (String × String)),
    (∀ K ∈ cs, ¬ K.length ≤ 1 → k' ∉ K) →
    List.lookup k'
        (cs.foldl (fun m K =>
          if K.length ≤ 1 then m
          else K.foldl (fun m' s => mapInsert m' s (minString K)) m) m) =
      List.lookup k' m := by
  intro cs
  induction cs with
  | nil => intro m _; rfl
  | cons K cs' ih =>
    intro m hK
    simp only [List.foldl_cons]
    rw [ih _ (fun K' hK' => hK K' (List.mem_cons_of_mem K hK'))]
    by_cases hlen : K.length ≤ 1
    · rw [if_pos hlen]
    · rw [if_neg hlen, lookup_foldl_class,
        if_neg (hK K (List.mem_cons_self K cs') hlen)]

theorem lookup_renamingOps_mem (k' : String) : ∀ (cs : List (List String))
    (m : List (String × String)) (K0 : List String),
    List.Pairwise (fun c1 c2 => ∀ x ∈ c1, x ∉ c2) cs →
    K0 ∈ cs → ¬ K0.length ≤ 1 → k' ∈ K0 →
    List.lookup k'
        (cs.foldl (fun m K =>
          if K.length ≤ 1 then m
          else K.foldl (fun m' s => mapInsert m' s (minString K)) m) m) =
      some (minString K0) := by
  intro cs
  induction cs with
  | nil => intro m K0 _ h; simp at h
  | cons K cs' ih =>
    intro m K0 hdisj hK0 hlen hk'
    simp only [List.foldl_cons]
    rcases List.mem_cons.mp hK0 with rfl | hK0'
    · have hnot : ∀ K' ∈ cs', ¬ K'.length ≤ 1 → k' ∉ K' := by
        intro K' hK' _ hmem
        exact (List.pairwise_cons.mp hdisj).1 K' hK' k' hk' hmem
      rw [lookup_renamingOps_untouched k' cs' _ hnot, if_neg hlen,
        lookup_foldl_class, if_pos hk']
    · exact ih _ K0 (List.pairwise_cons.mp hdisj).2 hK0' hlen hk'

theorem optionSetEqB_symm (a b : Option (List String))
    (h : optionSetEqB a b = true) : optionSetEqB b a = true := by
  cases a with
  | none => cases b with
    | none => rfl
    | some y => simp [optionSetEqB] at h
  | some x => cases b with
    | none => simp [optionSetEqB] at h
    | some y =>
      simp only [optionSetEqB, listSetEqB_iff] at h ⊢
      tauto

theorem optionSetEqB_trans (a b c : Option (List String))
    (hab : optionSetEqB a b = true) (hbc : optionSetEqB b c = true) :
    optionSetEqB a c = true := by
  cases a with
  | none => cases b with
    | none => exact hbc
    | some y => simp [optionSetEqB] at hab
  | some x => cases b with
    | none => simp [optionSetEqB] at hab
    | some y => cases c with
      | none => simp [optionSetEqB] at hbc
      | some z =>
        simp only [optionSetEqB, listSetEqB_iff] at hab hbc ⊢
        exact ⟨fun w hw => hbc.1 w (hab.1 w hw), fun w hw => hab.2 w (hbc.2 w hw)⟩

theorem are_indist_iff (d : Dfa) (s1 s2 : String) (symbols : List Char)
    (cs : List (List String)) :
    are_states_indistinguishable d s1 s2 symbols cs = true ↔
      (s1 = s2 ∨ ∀ i ∈ symbols,
        optionSetEqB (nextClassFor d cs s1 i) (nextClassFor d cs s2 i) = true) := by
  unfold are_states_indistinguishable
  rw [Bool.or_eq_true, beq_iff_eq, List.all_eq_true]

theorem are_indist_refl (d : Dfa) (symbols : List Char) (cs : List (List String))
    (s : String) : are_states_indistinguishable d s s symbols cs = true := by
  rw [are_indist_iff]
  exact Or.inl rfl

theorem are_indist_symm (d : Dfa) (symbols : List Char) (cs : List (List String))
    (s1 s2 : String) (h : are_states_indistinguishable d s1 s2 symbols cs = true) :
    are_states_indistinguishable d s2 s1 symbols cs = true := by
  rw [are_indist_iff] at h ⊢
  rcases h with rfl | h
  · exact Or.inl rfl
  · exact Or.inr (fun i hi => optionSetEqB_symm _ _ (h i hi))

theorem are_indist_trans (d : Dfa) (symbols : List Char) (cs : List (List String))
    (s1 s2 s3 : String) (h12 : are_states_indistinguishable d s1 s2 symbols cs = true)
    (h23 : are_states_indistinguishable d s2 s3 symbols cs = true) :
    are_states_indistinguishable d s1 s3 symbols cs = true := by
  rw [are_indist_iff] at h12 h23 ⊢
  rcases h12 with rfl | h12
  · exact h23
  · rcases h23 with rfl | h23
    · exact Or.inr h12
    · exact Or.inr (fun i hi => optionSetEqB_trans _ _ _ (h12 i hi) (h23 i hi))

theorem classElems_cons (K : List String) (cs : List (List String)) :
    classElems (K :: cs) = K ++ classElems cs := by
  simp [classElems]

theorem groupInsert_append (ACC DS : List (List String)) (p : String × String)
    (h1 : p.1 ∉ classElems ACC) (h2 : p.2 ∉ classElems ACC) :
    groupInsert (ACC ++ DS) p = ACC ++ groupInsert DS p := by
  induction ACC with
  | nil => simp
  | cons K ACC' ih =>
    rw [classElems_cons] at h1 h2
    simp only [List.mem_append] at h1 h2
    push_neg at h1 h2
    simp only [List.cons_append, groupInsert, if_neg (by tauto : ¬(p.1 ∈ K ∨ p.2 ∈ K))]
    show K :: groupInsert (ACC' ++ DS) p = K :: (ACC' ++ groupInsert DS p)
    rw [ih h1.2 h2.2]

theorem foldl_groupInsert_append (ps : List (String × String)) :
    ∀ ACC DS : List (List String),
      (∀ p ∈ ps, p.1 ∉ classElems ACC ∧ p.2 ∉ classElems ACC) →
      List.foldl groupInsert (ACC ++ DS) ps = ACC ++ List.foldl groupInsert DS ps := by
  induction ps with
  | nil => intro ACC DS _; rfl
  | cons p ps' ih =>
    intro ACC DS hp
    simp only [List.foldl_cons]
    rw [groupInsert_append ACC DS p (hp p (List.mem_cons_self p ps')).1
      (hp p (List.mem_cons_self p ps')).2]
    exact ih ACC (groupInsert DS p) (fun q hq => hp q (List.mem_cons_of_mem p hq))

theorem foldl_flatMap {α β γ : Type} (g : γ → β → γ) (f : α → List β) (l : List α)
    (init : γ) :
    List.foldl g init (l.flatMap f) = l.foldl (fun acc x => List.foldl g acc (f x)) init := by
  induction l generalizing init with
  | nil => rfl
  | cons a l' ih =>
    simp only [List.flatMap_cons, List.foldl_append, List.foldl_cons]
    exact ih (List.foldl g init (f a))

theorem groupInsert_eq_self (e : String → String → Bool)
    (hsymm : ∀ x y, e x y = true → e y x = true) :
    ∀ CS : List (List String),
      List.Pairwise (fun K K' => ∀ a ∈ K, ∀ b ∈ K', ¬ e a b = true) CS →
      ∀ s1 t : String, e s1 t = true → s1 ∈ classElems CS → t ∈ classElems CS →
      groupInsert CS (s1, t) = CS := by
  intro CS
  induction CS with
  | nil =>
    intro _ s1 t _ h
    simp [classElems] at h
  | cons K rest ih =>
    intro hsep s1 t hrel hs1 ht
    rw [classElems_cons, List.mem_append] at hs1 ht
    obtain ⟨hhead, htail⟩ := List.pairwise_cons.mp hsep
    by_cases hhit : s1 ∈ K ∨ t ∈ K
    · have hboth : s1 ∈ K ∧ t ∈ K := by
        rcases hhit with h | h
        · refine ⟨h, ?_⟩
          rcases ht with ht | ht
          · exact ht
          · exfalso
            rw [mem_classElems] at ht
            obtain ⟨K', hK', htK'⟩ := ht
            exact (hhead K' hK' s1 h t htK') hrel
        · refine ⟨?_, h⟩
          rcases hs1 with hs1 | hs1
          · exact hs1
          · exfalso
            rw [mem_classElems] at hs1
            obtain ⟨K', hK', hsK'⟩ := hs1
            exact (hhead K' hK' t h s1 hsK') (hsymm _ _ hrel)
      simp only [groupInsert, if_pos hhit]
      have e1 : setInsert s1 K = K := by simp [setInsert, hboth.1]
      rw [e1]
      have e2 : setInsert t K = K := by simp [setInsert, hboth.2]
      rw [e2]
    · push_neg at hhit
      simp only [groupInsert, if_neg (by tauto : ¬(s1 ∈ K ∨ t ∈ K))]
      have hs1' : s1 ∈ classElems rest := by
        rcases hs1 with h | h
        · exact absurd h hhit.1
        · exact h
      have ht' : t ∈ classElems rest := by
        rcases ht with h | h
        · exact absurd h hhit.2
        · exact h
      rw [ih htail s1 t hrel hs1' ht']

theorem foldl_groupInsert_eq_self (e : String → String → Bool)
    (hsymm : ∀ x y, e x y = true → e y x = true)
    (CS : List (List String))
    (hsep : List.Pairwise (fun K K' => ∀ a ∈ K, ∀ b ∈ K', ¬ e a b = true) CS) :
    ∀ L : List (String × String),
      (∀ p ∈ L, e p.1 p.2 = true ∧ p.1 ∈ classElems CS ∧ p.2 ∈ classElems CS) →
      List.foldl groupInsert CS L = CS := by
  intro L
  induction L with
  | nil => intro _; rfl
  | cons p L' ih =>
    intro hL
    obtain ⟨hrel, hp1, hp2⟩ := hL p (List.mem_cons_self p L')
    simp only [List.foldl_cons]
    have : groupInsert CS p = CS := by
      obtain ⟨p1, p2⟩ := p
      exact groupInsert_eq_self e hsymm CS hsep p1 p2 hrel hp1 hp2
    rw [this]
    exact ih (fun q hq => hL q (List.mem_cons_of_mem p hq))

theorem mem_foldl_setInsert : ∀ (L K : List String) (x : String),
    x ∈ List.foldl (fun K' t => setInsert t K') K L ↔ x ∈ K ∨ x ∈ L := by
  intro L
  induction L with
  | nil => intro K x; simp
  | cons t L' ih =>
    intro K x
    simp only [List.foldl_cons]
    rw [ih (setInsert t K) x, mem_setInsert]
    simp only [List.mem_cons]
    tauto

theorem nodup_setInsert (x : String) (l : List String) (h : l.Nodup) :
    (setInsert x l).Nodup := by
  unfold setInsert
  split
  · exact h
  · rename_i hx
    refine List.Nodup.append h (List.nodup_singleton x) ?_
    intro a ha hax
    rw [List.mem_singleton] at hax
    subst hax
    exact hx ha

theorem nodup_foldl_setInsert : ∀ (L K : List String), K.Nodup →
    (List.foldl (fun K' t => setInsert t K') K L).Nodup := by
  intro L
  induction L with
  | nil => intro K h; exact h
  | cons t L' ih =>
    intro K h
    simp only [List.foldl_cons]
    exact ih (setInsert t K) (nodup_setInsert t K h)

theorem foldl_groupInsert_growclass (s1 : String) : ∀ (L : List String)
    (CS : List (List String)) (K : List String),
    (∀ t ∈ L, t ∉ classElems CS) → s1 ∉ classElems CS → s1 ∈ K →
    List.foldl groupInsert (CS ++ [K]) (L.map (fun t => (s1, t))) =
      CS ++ [List.foldl (fun K' t => setInsert t K') K L] := by
  intro L
  induction L with
  | nil => intro CS K _ _ _; rfl
  | cons t L' ih =>
    intro CS K hL hs1 hs1K
    simp only [List.map_cons, List.foldl_cons]
    rw [groupInsert_append CS [K] (s1, t) hs1 (hL t (List.mem_cons_self t L'))]
    have h2 : groupInsert [K] (s1, t) = [setInsert t (setInsert s1 K)] := by
      simp only [groupInsert, if_pos (Or.inl hs1K)]
    have h3 : setInsert s1 K = K := by simp [setInsert, hs1K]
    rw [h2, h3]
    exact ih CS (setInsert t K) (fun t' ht' => hL t' (List.mem_cons_of_mem t ht')) hs1
      ((mem_setInsert s1 t K).mpr (Or.inr hs1K))

theorem foldl_groupInsert_newclass (s1 : String) (L : List String)
    (CS : List (List String)) (hs1 : s1 ∉ classElems CS)
    (hL : ∀ t ∈ L, t ∉ classElems CS) :
    List.foldl groupInsert CS ((s1 :: L).map (fun t => (s1, t))) =
      CS ++ [List.foldl (fun K' t => setInsert t K') [s1] L] := by
  simp only [List.map_cons, List.foldl_cons]
  have h1 : groupInsert CS (s1, s1) = CS ++ [setInsert s1 (setInsert s1 [])] := by
    refine groupInsert_fresh CS (s1, s1) ?_
    intro K hK
    have : s1 ∉ K := fun hm => hs1 ((mem_classElems CS s1).mpr ⟨K, hK, hm⟩)
    exact ⟨this, this⟩
  have h2 : setInsert s1 (setInsert s1 []) = [s1] := by simp [setInsert]
  rw [h1, h2]
  exact foldl_groupInsert_growclass s1 L CS [s1] hL hs1 (by simp)

theorem refine_single_class (e : String → String → Bool)
    (hrefl : ∀ x, e x x = true)
    (hsymm : ∀ x y, e x y = true → e y x = true)
    (htrans : ∀ x y z, e x y = true → e y z = true → e x z = true)
    (c : List String) :
    ∀ (suf seen : List String) (CS : List (List String)),
      c = seen ++ suf →
      (∀ x, x ∈ classElems CS ↔ (x ∈ c ∧ ∃ s0 ∈ seen, e s0 x = true)) →
      (∀ K ∈ CS, ∀ a ∈ K, ∀ b ∈ K, e a b = true) →
      List.Pairwise (fun K K' => ∀ a ∈ K, ∀ b ∈ K', ¬ e a b = true) CS →
      (∀ K ∈ CS, K.Nodup) →
      ∀ RES : List (List String),
        RES = List.foldl (fun acc s1 =>
          List.foldl groupInsert acc
            ((c.filter (fun s2 => e s1 s2)).map (fun s2 => (s1, s2)))) CS suf →
        ((∀ x, x ∈ classElems RES ↔ (x ∈ c ∧ ∃ s0 ∈ seen ++ suf, e s0 x = true)) ∧
          (∀ K ∈ RES, ∀ a ∈ K, ∀ b ∈ K, e a b = true) ∧
          List.Pairwise (fun K K' => ∀ a ∈ K, ∀ b ∈ K', ¬ e a b = true) RES ∧
          (∀ K ∈ RES, K.Nodup)) := by
  intro suf
  induction suf with
  | nil =>
    intro seen CS hc hA hB hC hD RES hRES
    subst hRES
    refine ⟨?_, hB, hC, hD⟩
    intro x
    simpa using hA x
  | cons s1 suf' ih =>
    intro seen CS hc hA hB hC hD RES hRES
    simp only [List.foldl_cons] at hRES
    have hs1c : s1 ∈ c := by
      rw [hc]
      exact List.mem_append_right _ (List.mem_cons_self s1 suf')
    have heqlists : (seen ++ [s1]) ++ suf' = seen ++ s1 :: suf' := by simp
    have hc' : c = (seen ++ [s1]) ++ suf' := by rw [heqlists]; exact hc
    by_cases hcov : ∃ s0 ∈ seen, e s0 s1 = true
    · have hCS1 : List.foldl groupInsert CS
          ((c.filter (fun s2 => e s1 s2)).map (fun s2 => (s1, s2))) = CS := by
        refine foldl_groupInsert_eq_self e hsymm CS hC _ ?_
        intro p hp
        rw [List.mem_map] at hp
        obtain ⟨s2, hs2, rfl⟩ := hp
        rw [List.mem_filter] at hs2
        obtain ⟨hs2c, hs2e⟩ := hs2
        obtain ⟨s0, hs0, hs0e⟩ := hcov
        exact ⟨hs2e, (hA s1).mpr ⟨hs1c, s0, hs0, hs0e⟩,
          (hA s2).mpr ⟨hs2c, s0, hs0, htrans s0 s1 s2 hs0e hs2e⟩⟩
      rw [hCS1] at hRES
      have hA' : ∀ x, x ∈ classElems CS ↔
          (x ∈ c ∧ ∃ s0 ∈ seen ++ [s1], e s0 x = true) := by
        intro x
        rw [hA x]
        constructor
        · rintro ⟨hxc, s0, hs0, h⟩
          exact ⟨hxc, s0, List.mem_append_left _ hs0, h⟩
        · rintro ⟨hxc, s0, hs0, h⟩
          rcases List.mem_append.mp hs0 with hs0 | hs0
          · exact ⟨hxc, s0, hs0, h⟩
          · rw [List.mem_singleton] at hs0
            subst hs0
            obtain ⟨s0', hs0', h'⟩ := hcov
            exact ⟨hxc, s0', hs0', htrans s0' s0 x h' h⟩
      obtain ⟨A, B, C, D⟩ := ih (seen ++ [s1]) CS hc' hA' hB hC hD RES hRES
      refine ⟨?_, B, C, D⟩
      intro x
      rw [A x, heqlists]
    · have hfresh : s1 ∉ classElems CS := by
        intro h
        obtain ⟨_, s0, hs0, he⟩ := (hA s1).mp h
        exact hcov ⟨s0, hs0, he⟩
      have hfilter : c.filter (fun s2 => e s1 s2) =
          s1 :: suf'.filter (fun s2 => e s1 s2) := by
        conv_lhs => rw [hc]
        rw [List.filter_append]
        have h1 : seen.filter (fun s2 => e s1 s2) = [] := by
          rw [List.filter_eq_nil_iff]
          intro x hx hpx
          exact hcov ⟨x, hx, hsymm s1 x hpx⟩
        rw [h1, List.nil_append, List.filter_cons_of_pos (hrefl s1)]
      have hLfresh : ∀ t ∈ suf'.filter (fun s2 => e s1 s2), t ∉ classElems CS := by
        intro t ht hmem
        rw [List.mem_filter] at ht
        obtain ⟨_, s0, hs0, he⟩ := (hA t).mp hmem
        exact hcov ⟨s0, hs0, htrans s0 t s1 he (hsymm s1 t ht.2)⟩
      have hCS1 : List.foldl groupInsert CS
          ((c.filter (fun s2 => e s1 s2)).map (fun s2 => (s1, s2))) =
          CS ++ [List.foldl (fun K' t => setInsert t K') [s1]
            (suf'.filter (fun s2 => e s1 s2))] := by
        rw [hfilter]
        exact foldl_groupInsert_newclass s1 _ CS hfresh hLfresh
      rw [hCS1] at hRES
      have hKmem : ∀ x, x ∈ List.foldl (fun K' t => setInsert t K') [s1]
          (suf'.filter (fun s2 => e s1 s2)) ↔ (x ∈ c ∧ e s1 x = true) := by
        intro x
        rw [mem_foldl_setInsert]
        constructor
        · rintro (h | h)
          · rw [List.mem_singleton] at h
            subst h
            exact ⟨hs1c, hrefl x⟩
          · rw [List.mem_filter] at h
            refine ⟨?_, h.2⟩
            rw [hc]
            exact List.mem_append_right _ (List.mem_cons_of_mem s1 h.1)
        · rintro ⟨hxc, hex⟩
          rw [hc] at hxc
          rcases List.mem_append.mp hxc with hx | hx
          · exact absurd ⟨x, hx, hsymm s1 x hex⟩ hcov
          · rcases List.mem_cons.mp hx with rfl | hx
            · exact Or.inl (List.mem_singleton.mpr rfl)
            · exact Or.inr (List.mem_filter.mpr ⟨hx, hex⟩)
      have hKclique : ∀ a ∈ List.foldl (fun K' t => setInsert t K') [s1]
          (suf'.filter (fun s2 => e s1 s2)), ∀ b ∈ List.foldl
          (fun K' t => setInsert t K') [s1] (suf'.filter (fun s2 => e s1 s2)),
          e a b = true := by
        intro a ha b hb
        have hea := ((hKmem a).mp ha).2
        have heb := ((hKmem b).mp hb).2
        exact htrans a s1 b (hsymm s1 a hea) heb
      have hA' : ∀ x, x ∈ classElems (CS ++ [List.foldl (fun K' t => setInsert t K') [s1]
          (suf'.filter (fun s2 => e s1 s2))]) ↔
          (x ∈ c ∧ ∃ s0 ∈ seen ++ [s1], e s0 x = true) := by
        intro x
        rw [classElems_append, List.mem_append]
        constructor
        · rintro (h | h)
          · obtain ⟨hxc, s0, hs0, he⟩ := (hA x).mp h
            exact ⟨hxc, s0, List.mem_append_left _ hs0, he⟩
          · have hk : x ∈ List.foldl (fun K' t => setInsert t K') [s1]
                (suf'.filter (fun s2 => e s1 s2)) := by
              simpa [classElems] using h
            obtain ⟨hxc, hex⟩ := (hKmem x).mp hk
            exact ⟨hxc, s1, List.mem_append_right _ (List.mem_singleton.mpr rfl), hex⟩
        · rintro ⟨hxc, s0, hs0, he⟩
          rcases List.mem_append.mp hs0 with hs0 | hs0
          · exact Or.inl ((hA x).mpr ⟨hxc, s0, hs0, he⟩)
          · rw [List.mem_singleton] at hs0
            rw [hs0] at he
            refine Or.inr ?_
            have : x ∈ List.foldl (fun K' t => setInsert t K') [s1]
                (suf'.filter (fun s2 => e s1 s2)) := (hKmem x).mpr ⟨hxc, he⟩
            simpa [classElems] using this
      have hB' : ∀ K ∈ CS ++ [List.foldl (fun K' t => setInsert t K') [s1]
          (suf'.filter (fun s2 => e s1 s2))], ∀ a ∈ K, ∀ b ∈ K, e a b = true := by
        intro K hK
        rcases List.mem_append.mp hK with hK | hK
        · exact hB K hK
        · rw [List.mem_singleton] at hK
          subst hK
          exact hKclique
      have hC' : List.Pairwise (fun K K' => ∀ a ∈ K, ∀ b ∈ K', ¬ e a b = true)
          (CS ++ [List.foldl (fun K' t => setInsert t K') [s1]
            (suf'.filter (fun s2 => e s1 s2))]) := by
        rw [List.pairwise_append]
        refine ⟨hC, List.pairwise_singleton _ _, ?_⟩
        intro K hK Kf hKf x hx y hy hexy
        rw [List.mem_singleton] at hKf
        subst hKf
        have hey := ((hKmem y).mp hy).2
        have hxelems : x ∈ classElems CS := (mem_classElems CS x).mpr ⟨K, hK, hx⟩
        obtain ⟨_, s0, hs0, hs0x⟩ := (hA x).mp hxelems
        have hxs1 : e x s1 = true := htrans x y s1 hexy (hsymm s1 y hey)
        exact hcov ⟨s0, hs0, htrans s0 x s1 hs0x hxs1⟩
      have hD' : ∀ K ∈ CS ++ [List.foldl (fun K' t => setInsert t K') [s1]
          (suf'.filter (fun s2 => e s1 s2))], K.Nodup := by
        intro K hK
        rcases List.mem_append.mp hK with hK | hK
        · exact hD K hK
        · rw [List.mem_singleton] at hK
          subst hK
          exact nodup_foldl_setInsert _ [s1] (List.nodup_singleton s1)
      obtain ⟨A, B, C, D⟩ := ih (seen ++ [s1]) _ hc' hA' hB' hC' hD' RES hRES
      refine ⟨?_, B, C, D⟩
      intro x
      rw [A x, heqlists]

theorem refine_class_group (e : String → String → Bool)
    (hrefl : ∀ x, e x x = true)
    (hsymm : ∀ x y, e x y = true → e y x = true)
    (htrans : ∀ x y z, e x y = true → e y z = true → e x z = true)
    (c : List String) :
    (∀ x, x ∈ classElems (List.foldl groupInsert [] (classPairs e c)) ↔ x ∈ c) ∧
    List.Pairwise (fun K K' => ∀ a ∈ K, ∀ b ∈ K', ¬ e a b = true)
      (List.foldl groupInsert [] (classPairs e c)) ∧
    (∀ K ∈ List.foldl groupInsert [] (classPairs e c), K.Nodup) := by
  have hfold : List.foldl groupInsert [] (classPairs e c) =
      List.foldl (fun acc s1 => List.foldl groupInsert acc
        ((c.filter (fun s2 => e s1 s2)).map (fun s2 => (s1, s2)))) [] c := by
    unfold classPairs
    exact foldl_flatMap groupInsert _ c []
  obtain ⟨A, B, C, D⟩ := refine_single_class e hrefl hsymm htrans c c [] []
    (by simp) (by intro x; simp [classElems]) (by simp) List.Pairwise.nil (by simp)
    _ hfold
  refine ⟨?_, C, D⟩
  intro x
  rw [A x]
  simp only [List.nil_append]
  constructor
  · rintro ⟨hx, _⟩
    exact hx
  · intro hx
    exact ⟨hx, x, hx, hrefl x⟩

theorem foldl_class_groups (e : String → String → Bool)
    (hrefl : ∀ x, e x x = true)
    (hsymm : ∀ x y, e x y = true → e y x = true)
    (htrans : ∀ x y z, e x y = true → e y z = true → e x z = true) :
    ∀ cs ACC : List (List String),
      List.Pairwise (fun c1 c2 => ∀ x ∈ c1, x ∉ c2) cs →
      List.Pairwise (fun K K' => ∀ x ∈ K, x ∉ K') ACC →
      (∀ K ∈ ACC, K.Nodup) →
      (∀ x ∈ classElems ACC, ∀ c0 ∈ cs, x ∉ c0) →
      List.Pairwise (fun K K' => ∀ x ∈ K, x ∉ K')
        (cs.foldl (fun A c0 => List.foldl groupInsert A (classPairs e c0)) ACC) ∧
      (∀ K ∈ cs.foldl (fun A c0 => List.foldl groupInsert A (classPairs e c0)) ACC,
        K.Nodup) := by
  intro cs
  induction cs with
  | nil =>
    intro ACC _ h2 h3 _
    exact ⟨h2, h3⟩
  | cons c cs' ih =>
    intro ACC hcs hACC hACCnodup hACCfresh
    simp only [List.foldl_cons]
    have hinner : List.foldl groupInsert ACC (classPairs e c) =
        ACC ++ List.foldl groupInsert [] (classPairs e c) := by
      have h0 : List.foldl groupInsert (ACC ++ []) (classPairs e c) =
          ACC ++ List.foldl groupInsert [] (classPairs e c) := by
        refine foldl_groupInsert_append (classPairs e c) ACC [] ?_
        intro p hp
        have hpc := mem_classPairs e c p hp
        exact ⟨fun hm => hACCfresh p.1 hm c (List.mem_cons_self c cs') hpc.1,
          fun hm => hACCfresh p.2 hm c (List.mem_cons_self c cs') hpc.2⟩
      simpa using h0
    rw [hinner]
    obtain ⟨hmemOUT, hpwOUT, hnodupOUT⟩ := refine_class_group e hrefl hsymm htrans c
    have hpwOUT' : List.Pairwise (fun K K' => ∀ x ∈ K, x ∉ K')
        (List.foldl groupInsert [] (classPairs e c)) := by
      refine hpwOUT.imp ?_
      intro K K' h x hx hx'
      exact (h x hx x hx') (hrefl x)
    obtain ⟨hhead, htailcs⟩ := List.pairwise_cons.mp hcs
    refine ih (ACC ++ List.foldl groupInsert [] (classPairs e c)) htailcs ?_ ?_ ?_
    · rw [List.pairwise_append]
      refine ⟨hACC, hpwOUT', ?_⟩
      intro K hK Kf hKf x hx hxf
      have hxelems : x ∈ classElems ACC := (mem_classElems ACC x).mpr ⟨K, hK, hx⟩
      have hxc : x ∈ c := (hmemOUT x).mp ((mem_classElems _ x).mpr ⟨Kf, hKf, hxf⟩)
      exact hACCfresh x hxelems c (List.mem_cons_self c cs') hxc
    · intro K hK
      rcases List.mem_append.mp hK with h | h
      · exact hACCnodup K h
      · exact hnodupOUT K h
    · intro x hx c0 hc0
      rw [classElems_append, List.mem_append] at hx
      rcases hx with hx | hx
      · exact hACCfresh x hx c0 (List.mem_cons_of_mem c hc0)
      · have hxc : x ∈ c := (hmemOUT x).mp hx
        exact hhead c0 hc0 x hxc

theorem refineStep_disjoint (d : Dfa) (cs : List (List String))
    (hdisj : List.Pairwise (fun c1 c2 => ∀ x ∈ c1, x ∉ c2) cs) :
    List.Pairwise (fun K K' => ∀ x ∈ K, x ∉ K') (refineStep d cs) ∧
      ∀ K ∈ refineStep d cs, K.Nodup := by
  have hfold : refineStep d cs = cs.foldl (fun A c0 => List.foldl groupInsert A
      (classPairs (fun s1 s2 => are_states_indistinguishable d s1 s2
        (get_all_input_symbols d) cs) c0)) [] := by
    unfold refineStep buildClasses indistPairsE
    exact foldl_flatMap groupInsert _ cs []
  rw [hfold]
  exact foldl_class_groups _
    (fun x => are_indist_refl d (get_all_input_symbols d) cs x)
    (fun x y h => are_indist_symm d (get_all_input_symbols d) cs x y h)
    (fun x y z h1 h2 => are_indist_trans d (get_all_input_symbols d) cs x y z h1 h2)
    cs [] hdisj List.Pairwise.nil (by simp) (by simp [classElems])

theorem classesAt_disjoint_nodup (d : Dfa) (hacc : d.accept_states.Nodup) (n : Nat) :
    List.Pairwise (fun c1 c2 => ∀ x ∈ c1, x ∉ c2) (classesAt d n) ∧
      ∀ K ∈ classesAt d n, K.Nodup := by
  induction n with
  | zero =>
    constructor
    · show List.Pairwise _ (initialClasses d)
      unfold initialClasses
      rw [List.pairwise_cons]
      refine ⟨?_, List.pairwise_singleton _ _⟩
      intro c' hc' x hx
      rw [List.mem_singleton] at hc'
      subst hc'
      intro hmem
      rw [List.mem_filter, decide_eq_true_eq] at hmem
      exact hmem.2 hx
    · intro K hK
      have hK' : K ∈ initialClasses d := hK
      unfold initialClasses at hK'
      rcases List.mem_cons.mp hK' with rfl | hK'
      · exact hacc
      · rw [List.mem_singleton] at hK'
        subst hK'
        exact (List.nodup_dedup _).filter _
  | succ n ih =>
    have hstep : classesAt d (n + 1) = refineStep d (classesAt d n) := by
      simp [classesAt, Function.iterate_succ_apply']
    rw [hstep]
    exact refineStep_disjoint d (classesAt d n) ih.1

/-- C6: the renaming map returned by `minimize` binds exactly the states
that belong to a multi-member final equivalence block (the representative
included, bound to itself), and each such state is bound to the
lexicographically smallest member of its block; states of singleton blocks
are absent from the map and hence keep their identifier. -/
theorem minimize_renaming_map (d : Dfa) (hacc : d.accept_states.Nodup)
    (s v : String) :
    List.lookup s (minimize d).2 = some v ↔
      ∃ c ∈ finalClasses (remove_inaccessible_states d),
        2 ≤ c.length ∧ s ∈ c ∧ v ∈ c ∧ ∀ x ∈ c, strLeb v x = true := by
  have hmap : (minimize d).2 =
      renamingOperations (finalClasses (remove_inaccessible_states d)) := rfl
  have haccp : (remove_inaccessible_states d).accept_states.Nodup := hacc
  have hdisj : List.Pairwise (fun c1 c2 => ∀ x ∈ c1, x ∉ c2)
      (finalClasses (remove_inaccessible_states d)) :=
    (classesAt_disjoint_nodup (remove_inaccessible_states d) haccp
      (minimizeRounds (remove_inaccessible_states d))).1
  rw [hmap]
  unfold renamingOperations
  constructor
  · intro hlook
    by_cases hex : ∃ K ∈ finalClasses (remove_inaccessible_states d),
        2 ≤ K.length ∧ s ∈ K
    · obtain ⟨K0, hK0, h2, hsK⟩ := hex
      have hlen : ¬ K0.length ≤ 1 := by omega
      have hsome := lookup_renamingOps_mem s
        (finalClasses (remove_inaccessible_states d)) [] K0 hdisj hK0 hlen hsK
      rw [hsome] at hlook
      have hv : v = minString K0 := (Option.some_inj.mp hlook).symm
      have hKne : K0 ≠ [] := by
        intro h
        rw [h] at h2
        simp at h2
      obtain ⟨hmem, hmin⟩ := minString_spec K0 hKne
      exact ⟨K0, hK0, h2, hsK, hv ▸ hmem, hv ▸ hmin⟩
    · push_neg at hex
      have huntouched := lookup_renamingOps_untouched s
        (finalClasses (remove_inaccessible_states d)) []
        (fun K hK hlen => hex K hK (by omega))
      rw [huntouched] at hlook
      exact absurd hlook (by simp)
  · rintro ⟨K0, hK0, h2, hsK, hvK, hvmin⟩
    have hlen : ¬ K0.length ≤ 1 := by omega
    rw [lookup_renamingOps_mem s (finalClasses (remove_inaccessible_states d)) []
      K0 hdisj hK0 hlen hsK]
    have hKne : K0 ≠ [] := by
      intro h
      rw [h] at h2
      simp at h2
    obtain ⟨hmem, hmin⟩ := minString_spec K0 hKne
    rw [strLeb_antisymm (minString K0) v (hmin v hvK) (hvmin (minString K0) hmem)]

/-- C6 (witness): the hypothesis of the renaming-map characterization holds
on `dfaBug`, where the map sends the merged state `q1` to the
lexicographically smallest member `q0` of its block. -/
theorem minimize_renaming_map_witness :
    dfaBug.accept_states.Nodup ∧
      (List.lookup "q1" (minimize dfaBug).2 = some "q0" ↔
        ∃ c ∈ finalClasses (remove_inaccessible_states dfaBug),
          2 ≤ c.length ∧ "q1" ∈ c ∧ "q0" ∈ c ∧ ∀ x ∈ c, strLeb "q0" x = true) :=
  ⟨by decide, minimize_renaming_map dfaBug (by decide) "q1" "q0"⟩

theorem check_dfaScenario1 :
    check dfaScenario1 ['0', '0', '0', '1', '1', '1'] =
      (true, ["q0", "q0", "q0", "q0", "q1", "q1", "q1"]) ∧
    (check dfaScenario1 ['0', '0', '0', '1', '0']).1 = false ∧
    (check dfaScenario1 ['0', '1', '0', '1']).1 = false := by
  refine ⟨?_, ?_, ?_⟩ <;> decide

theorem get_all_states_dfaExample : (get_all_states dfaExample).length = 9 := by
  decide

theorem check_dfaExample_before :
    (check dfaExample ['a', 'b', 'a', 'b', 'b', 'a']).1 = true := by
  decide

theorem bfsFrom_dfaExample :
    bfsFrom dfaExample.transitions dfaExample.start_state =
      ["q1", "q2", "q3", "q6", "q4", "q5", "q8", "q7"] := by
  rw [bfsFrom_eq_of_halt dfaExample.transitions dfaExample.start_state 12 (by decide)]
  decide

theorem prune_dfaExample :
    remove_inaccessible_states dfaExample = dfaExamplePruned := by
  unfold remove_inaccessible_states
  rw [bfsFrom_dfaExample]
  decide

theorem get_all_states_dfaExamplePruned :
    (get_all_states dfaExamplePruned).length = 8 := by
  decide

set_option maxHeartbeats 2000000 in
theorem minimizeRounds_dfaExamplePruned : minimizeRounds dfaExamplePruned = 2 := by
  rw [minimizeRounds, Nat.find_eq_iff]
  exact ⟨by decide, by decide⟩

theorem finalClasses_dfaExamplePruned :
    finalClasses dfaExamplePruned = classesAt dfaExamplePruned 2 := by
  rw [finalClasses, minimizeRounds_dfaExamplePruned]

set_option maxHeartbeats 2000000 in
theorem minimize_dfaExample_result :
    (get_all_states (minimize dfaExample).1).length = 5 ∧
      (check (minimize dfaExample).1 ['a', 'b', 'a', 'b', 'b', 'a']).1 = true := by
  unfold minimize
  simp only [prune_dfaExample, finalClasses_dfaExamplePruned]
  exact ⟨by decide, by decide⟩
